import Mathlib

/-!
Shallow embedding of the sandgate core (oxidecomputer/sandgate):
  * `src/src/value.rs`   — the variant value and coercion layer,
  * `src/src/oidtree.rs` — the symbolic namespace tree,
  * `src/src/walk.rs`    — the result extractor (`extract_object`, `extract_table`).

Machine integers are modelled as `Nat`/`Int` (OID components are `u32`, byte
values are `u8`, payloads as in `csnmp::ObjectValue`).  Fallible Rust code
(`anyhow::Result`, `serde` errors) is modelled with `Except Err`.  External
collaborators are modelled from their documented behaviour: `BTreeMap` as a
key/value association list queried with `List.lookup` and ranged with an order
filter, `HashMap` as an association list with replace-on-insert, Rust
`str::from_utf8` as a strict UTF-8 decoder, and serde's numeric visitors as
range checks on the visited integer.  Rust panics (`unwrap`/`expect` on
internally impossible cases, unbounded loops on malformed trees) surface as
the distinguished error `Err.internalPanic`.
-/

namespace Sandgate

/-! ## Errors

One structured error type covering every `bail!`/`anyhow!`/serde error site in
the embedded code.  Each constructor corresponds to one failure site and
carries the data the Rust error message interpolates. -/

inductive Err where
  /-- `oidtree.rs`: `bail!("invalid OID name: {name:?}")` in `split_name`. -/
  | invalidName (name : String)
  /-- `oidtree.rs`: `bail!("could not find root node {:?}", t[0])` in `oid_by_name`. -/
  | rootNotFound (component : String)
  /-- `oidtree.rs`: `bail!("could not find {tt:?}")` in `walk_down_under`. -/
  | childNotFound (component : String)
  /-- `oidtree.rs`: `bail!("cannot do it")` in `oid_name` when no anchor of any
  nonzero length is found. -/
  | anchorNotFound
  /-- `oidtree.rs`: `bail!("could not find oid {oid:?}")` in `find_oid`. -/
  | oidNotFound (oid : List Nat)
  /-- `oidtree.rs`: `bail!("that wont work")` in `add_oid_under`/`add_oid_root`. -/
  | wontWork
  /-- `walk.rs`: `bail!("could not locate table size at {table_size})")`. -/
  | sizeMissing (tableSize : List Nat)
  /-- `walk.rs`: `anyhow!("invalid size {i} at {table_size}: {e}")` for a
  negative `i32` size. -/
  | sizeNegative (i : Int) (tableSize : List Nat)
  /-- `walk.rs`: `bail!("invalid size {size:?} at {table_size}")` for a
  non-`Integer` size value. -/
  | sizeNotInteger (tableSize : List Nat)
  /-- `walk.rs`: `bail!("unusual table structure: {rel} under {oid}?")`. -/
  | unusualStructure (oid : List Nat)
  /-- `walk.rs`: `bail!("name {n} not prefixed with ...")` in both extractors. -/
  | notPrefixed (basename : String) (pre : String)
  /-- `walk.rs`: `bail!("duplicate {n:?}[{i}] value?")` in `extract_table`. -/
  | duplicateColumn (name : String) (row : Nat)
  /-- `walk.rs`: `bail!("table is missing index {i}?")` in `extract_table`. -/
  | missingIndex (i : Nat)
  /-- `value.rs`: `invalid_value(Unexpected::Signed(i), &"a u32")` for a
  negative `Integer` requested as unsigned. -/
  | negativeInt (i : Int)
  /-- `value.rs`: serde `invalid_value` range errors (`Counter64` out of `i64`
  range, and the target-width checks performed by serde's numeric visitors). -/
  | outOfRange
  /-- `value.rs`: `invalid_value(Unexpected::Other(..), &expected)` shape
  mismatches. -/
  | wrongShape (expected : String)
  /-- `value.rs`: `invalid_value(.., &"a valid UTF-8 string")` for non-UTF-8
  byte strings. -/
  | utf8Error
  /-- `value.rs`: `Error::custom("no ... support")` for unsupported target
  shapes. -/
  | noSupport (what : String)
  /-- A Rust panic (`unwrap`/`expect` failure, or a loop that cannot terminate
  on a malformed tree).  Never reached on well-formed inputs. -/
  | internalPanic
  deriving DecidableEq, Repr

/-! ## Values (`value.rs`, payloads from `csnmp::ObjectValue`)

`csnmp::ObjectValue` is the closed variant type of SNMP values.  Payloads:
`Integer` is `i32`, the unsigned-32 family is `u32`, `Counter64` is `u64`,
`String`/`Opaque` are byte vectors, `ObjectId` a `u32` sequence, `IpAddress`
a four-byte address (modelled by its bytes; the payload is never inspected by
the deserializer). -/

inductive ObjectValue where
  | integer (i : Int)
  | string (bytes : List Nat)
  | objectId (oid : List Nat)
  | ipAddress (bytes : List Nat)
  | counter32 (u : Nat)
  | unsigned32 (u : Nat)
  | timeTicks (u : Nat)
  | Opaque (bytes : List Nat)
  | counter64 (u : Nat)
  deriving DecidableEq, Repr

namespace ObjectValue

/-- Modelled from the csnmp crate: `ObjectValue::as_i32` returns the payload
for the `Integer` variant only (used by `extract_table` for the table size). -/
def as_i32 : ObjectValue → Option Int
  | .integer i => some i
  | _ => none

end ObjectValue

/-- `ValueDeserializer::as_u64` (`value.rs` lines 37–61): `Integer` succeeds
when non-negative; the unsigned-32 family widens; `Counter64` passes through;
everything else is a shape error. -/
def as_u64 : ObjectValue → Except Err Nat
  | .integer i =>
      if i < 0 then .error (.negativeInt i) else .ok i.toNat
  | .counter32 u => .ok u
  | .unsigned32 u => .ok u
  | .timeTicks u => .ok u
  | .counter64 u => .ok u
  | _ => .error (.wrongShape "a u64")

/-- `ValueDeserializer::as_i64` (`value.rs` lines 63–87): `Integer` and the
unsigned-32 family widen losslessly; `Counter64` fails above `i64::MAX`;
everything else is a shape error. -/
def as_i64 : ObjectValue → Except Err Int
  | .integer i => .ok i
  | .counter32 u => .ok u
  | .unsigned32 u => .ok u
  | .timeTicks u => .ok u
  | .counter64 u =>
      if u < 2 ^ 63 then .ok (Int.ofNat u) else .error .outOfRange
  | _ => .error (.wrongShape "an i64")

/-! ### Strict UTF-8 decoding (Rust `std::str::from_utf8`)

Modelled from Rust's documented strict UTF-8 validation: rejects overlong
encodings, surrogates and code points above `0x10FFFF`. -/

def utf8Chars : List Nat → Option (List Char)
  | [] => some []
  | b1 :: rest =>
    if b1 < 0x80 then
      (utf8Chars rest).map (fun cs => Char.ofNat b1 :: cs)
    else if 0xC2 ≤ b1 ∧ b1 ≤ 0xDF then
      match rest with
      | b2 :: rest2 =>
        if 0x80 ≤ b2 ∧ b2 ≤ 0xBF then
          (utf8Chars rest2).map
            (fun cs => Char.ofNat ((b1 - 0xC0) * 0x40 + (b2 - 0x80)) :: cs)
        else none
      | [] => none
    else if 0xE0 ≤ b1 ∧ b1 ≤ 0xEF then
      match rest with
      | b2 :: b3 :: rest3 =>
        let lo2 : Nat := if b1 = 0xE0 then 0xA0 else 0x80
        let hi2 : Nat := if b1 = 0xED then 0x9F else 0xBF
        if (lo2 ≤ b2 ∧ b2 ≤ hi2) ∧ (0x80 ≤ b3 ∧ b3 ≤ 0xBF) then
          (utf8Chars rest3).map
            (fun cs =>
              Char.ofNat
                ((b1 - 0xE0) * 0x1000 + (b2 - 0x80) * 0x40 + (b3 - 0x80)) :: cs)
        else none
      | _ => none
    else if 0xF0 ≤ b1 ∧ b1 ≤ 0xF4 then
      match rest with
      | b2 :: b3 :: b4 :: rest4 =>
        let lo2 : Nat := if b1 = 0xF0 then 0x90 else 0x80
        let hi2 : Nat := if b1 = 0xF4 then 0x8F else 0xBF
        if (lo2 ≤ b2 ∧ b2 ≤ hi2) ∧ (0x80 ≤ b3 ∧ b3 ≤ 0xBF)
            ∧ (0x80 ≤ b4 ∧ b4 ≤ 0xBF) then
          (utf8Chars rest4).map
            (fun cs =>
              Char.ofNat
                ((b1 - 0xF0) * 0x40000 + (b2 - 0x80) * 0x1000
                  + (b3 - 0x80) * 0x40 + (b4 - 0x80)) :: cs)
        else none
      | _ => none
    else none

def utf8Decode : List Nat → Option String :=
  fun bs => (utf8Chars bs).map String.mk

/-! ### Target shapes and the generic decoding contract

`Shape` enumerates the `deserialize_*` entry points of the `Deserializer`
implementation in `value.rs`.  `Decoded` is the value produced by the
standard serde visitor for that target: serde's numeric `Deserialize`
implementations accept `visit_i64`/`visit_u64` and fail with an out-of-range
error when the value does not fit the target width (modelled from serde). -/

inductive Shape where
  | bool | i8 | i16 | i32 | i64 | u8 | u16 | u32 | u64
  | f32 | f64 | char | str | string | bytes | byteBuf
  | option | unit | unitStruct | newtypeStruct | seq
  | tuple | tupleStruct | map | struct | enum | identifier
  | ignoredAny
  deriving DecidableEq, Repr

inductive Decoded where
  | int (i : Int)
  | nat (n : Nat)
  | str (s : String)
  | bytes (bs : List Nat)
  | seq (oid : List Nat)
  deriving DecidableEq, Repr

/-- Signed numeric targets: `deserialize_i8/i16/i32` all forward to
`deserialize_i64`, which calls `v.visit_i64(self.as_i64()?)`; the serde
visitor for the target width then range-checks the visited value. -/
def visitSigned (lo hi : Int) (v : ObjectValue) : Except Err Decoded := do
  let i ← as_i64 v
  if lo ≤ i ∧ i ≤ hi then .ok (.int i) else .error .outOfRange

/-- Unsigned numeric targets: `deserialize_u8/u16/u32` all forward to
`deserialize_u64`, which calls `v.visit_u64(self.as_u64()?)`; the serde
visitor for the target width then range-checks the visited value. -/
def visitUnsigned (hi : Nat) (v : ObjectValue) : Except Err Decoded := do
  let u ← as_u64 v
  if u ≤ hi then .ok (.nat u) else .error .outOfRange

/-- `Deserializer::deserialize_str` (`value.rs` lines 195–213). -/
def deserialize_str : ObjectValue → Except Err Decoded
  | .string buf =>
      match utf8Decode buf with
      | some s => .ok (.str s)
      | none => .error .utf8Error
  | _ => .error (.wrongShape "a valid UTF-8 string")

/-- `Deserializer::deserialize_bytes` (`value.rs` lines 222–235): only the
`String` and `Opaque` variants carry raw bytes. -/
def deserialize_bytes : ObjectValue → Except Err Decoded
  | .string buf => .ok (.bytes buf)
  | .Opaque buf => .ok (.bytes buf)
  | _ => .error (.wrongShape "an Opaque or a string")

/-- `Deserializer::deserialize_seq` (`value.rs` lines 280–319): only
`ObjectId` is sequence-shaped; its `u32` components are yielded in order. -/
def deserialize_seq : ObjectValue → Except Err Decoded
  | .objectId oid => .ok (.seq oid)
  | _ => .error (.wrongShape "an object ID")

/-- Dispatch for every target shape except `deserialize_any` (`value.rs`
lines 111–387). -/
def deserializeShape (v : ObjectValue) : Shape → Except Err Decoded
  | .bool => .error (.noSupport "bool")
  | .i8 => visitSigned (-(2 ^ 7)) (2 ^ 7 - 1) v
  | .i16 => visitSigned (-(2 ^ 15)) (2 ^ 15 - 1) v
  | .i32 => visitSigned (-(2 ^ 31)) (2 ^ 31 - 1) v
  | .i64 => visitSigned (-(2 ^ 63)) (2 ^ 63 - 1) v
  | .u8 => visitUnsigned (2 ^ 8 - 1) v
  | .u16 => visitUnsigned (2 ^ 16 - 1) v
  | .u32 => visitUnsigned (2 ^ 32 - 1) v
  | .u64 => visitUnsigned (2 ^ 64 - 1) v
  | .f32 => .error (.noSupport "f32")
  | .f64 => .error (.noSupport "f64")
  | .char => .error (.noSupport "char")
  | .str => deserialize_str v
  | .string => deserialize_str v
  | .bytes => deserialize_bytes v
  | .byteBuf => deserialize_bytes v
  | .option => .error (.noSupport "option")
  | .unit => .error (.noSupport "unit")
  | .unitStruct => .error (.noSupport "unit struct")
  | .newtypeStruct => .error (.noSupport "newtype struct")
  | .seq => deserialize_seq v
  | .tuple => .error (.noSupport "tuple")
  | .tupleStruct => .error (.noSupport "tuple struct")
  | .map => .error (.noSupport "map")
  | .struct => .error (.noSupport "struct")
  | .enum => .error (.noSupport "enum")
  | .identifier => .error (.noSupport "identifier")
  | .ignoredAny => deserialize_any v
where
  /-- `Deserializer::deserialize_any` (`value.rs` lines 93–109): dispatch on
  the value's own variant.  The caller's catch-all visitor accepts whatever
  integer is visited, so the numeric branches are the raw `as_i64`/`as_u64`
  results; `IpAddress` and `Opaque` are routed to the byte-sequence rule. -/
  deserialize_any : ObjectValue → Except Err Decoded
  | .integer i => (as_i64 (.integer i)).map .int
  | .string bs => deserialize_str (.string bs)
  | .objectId oid => deserialize_seq (.objectId oid)
  | .counter32 u => (as_u64 (.counter32 u)).map .nat
  | .unsigned32 u => (as_u64 (.unsigned32 u)).map .nat
  | .timeTicks u => (as_u64 (.timeTicks u)).map .nat
  | .counter64 u => (as_u64 (.counter64 u)).map .nat
  | .ipAddress bs => deserialize_bytes (.ipAddress bs)
  | .Opaque bs => deserialize_bytes (.Opaque bs)

/-- `deserialize_any` as a standalone entry point (valid target request in its
own right: it is what "decode anything" callers and `deserialize_ignored_any`
invoke). -/
def deserialize_any : ObjectValue → Except Err Decoded :=
  deserializeShape.deserialize_any

/-! ## Claim theorems for the coercion layer -/

/-- C5: decoding a `Counter64` holding `4294967296` (2^32) as an unsigned
64-bit target yields exactly `4294967296`, and decoding it as a signed 32-bit
target fails (out of range). -/
theorem counter64_narrowing :
    deserializeShape (.counter64 4294967296) .u64 = .ok (.nat 4294967296) ∧
    deserializeShape (.counter64 4294967296) .i32 = .error .outOfRange := by
  constructor <;> rfl

/-- C8: a request for an unsigned integer (`as_u64`) succeeds exactly for an
`Integer` with non-negative payload (failing with the negative-value error
otherwise), for the three unsigned-32-family variants and the 64-bit counter
(by widening, value preserved); every other variant fails with the
value-shape error. -/
theorem unsigned_coercion_rule (v : ObjectValue) :
    ((∃ n, as_u64 v = .ok n) ↔
      (∃ i, v = .integer i ∧ 0 ≤ i) ∨ (∃ u, v = .counter32 u) ∨
      (∃ u, v = .unsigned32 u) ∨ (∃ u, v = .timeTicks u) ∨
      (∃ u, v = .counter64 u)) ∧
    (∀ i : Int, v = .integer i → 0 ≤ i → as_u64 v = .ok i.toNat) ∧
    (∀ i : Int, v = .integer i → i < 0 → as_u64 v = .error (.negativeInt i)) ∧
    (∀ u : Nat,
      v = .counter32 u ∨ v = .unsigned32 u ∨ v = .timeTicks u ∨
        v = .counter64 u →
      as_u64 v = .ok u) ∧
    ((∀ i, v ≠ .integer i) → (∀ u, v ≠ .counter32 u) →
      (∀ u, v ≠ .unsigned32 u) → (∀ u, v ≠ .timeTicks u) →
      (∀ u, v ≠ .counter64 u) →
      as_u64 v = .error (.wrongShape "a u64")) := by
  refine ⟨?_, ?_, ?_, ?_, ?_⟩
  · cases v <;> simp only [as_u64] <;> try split_ifs with h
    all_goals simp <;> omega
  · rintro i rfl h
    simp [as_u64, h, not_lt.mpr h]
  · rintro i rfl h
    simp [as_u64, h]
  · rintro u (rfl | rfl | rfl | rfl) <;> rfl
  · intro h1 h2 h3 h4 h5
    cases v <;> first
      | rfl
      | exact absurd rfl (h1 _)
      | exact absurd rfl (h2 _)
      | exact absurd rfl (h3 _)
      | exact absurd rfl (h4 _)
      | exact absurd rfl (h5 _)

/-- Witness for C8: the theorem applied at concrete inputs. -/
theorem unsigned_coercion_rule_witness :
    as_u64 (.integer 5) = .ok 5 ∧
    as_u64 (.counter64 7) = .ok 7 ∧
    as_u64 (.Opaque [1]) = .error (.wrongShape "a u64") := by
  refine ⟨?_, ?_, ?_⟩
  · exact (unsigned_coercion_rule (.integer 5)).2.1 5 rfl (by decide)
  · exact (unsigned_coercion_rule (.counter64 7)).2.2.2.1 7 (by simp)
  · exact (unsigned_coercion_rule (.Opaque [1])).2.2.2.2
      (by intro i h; cases h) (by intro u h; cases h) (by intro u h; cases h)
      (by intro u h; cases h) (by intro u h; cases h)

/-- C10: an `IpAddress` value is undecodable under every target shape: the
byte-sequence rule accepts only `String` and `Opaque`, the numeric rules
reject it, and the "decode anything" dispatch routes it to the byte-sequence
rule, so every request fails. -/
theorem ipaddress_undecodable :
    (∀ (s : Shape) (bs : List Nat),
      ∃ e, deserializeShape (.ipAddress bs) s = .error e) ∧
    (∀ bs : List Nat, ∃ e, deserialize_any (.ipAddress bs) = .error e) := by
  constructor
  · intro s bs
    cases s <;> exact ⟨_, rfl⟩
  · intro bs
    exact ⟨_, rfl⟩

/-! ## The namespace tree (`oidtree.rs`)

`OidTree` is an arena of nodes (`Vec<OidTreeEntry>`); every Rust
`self.nodes.iter().find(..)` becomes `List.find?`.  `find_oid` on an empty
slice panics in Rust (`prior.unwrap()`); that case is modelled as a lookup
failure.  The two climbing loops (`oid_name`'s name collection and
`oid_for_node`) are modelled with fuel `ent.id + 1`: on well-formed trees a
node's parent identity is strictly smaller than its own, so the fuel never
runs out; on a malformed tree the Rust code would spin or panic, which
surfaces here as `Err.internalPanic`. -/

structure OidTreeEntry where
  id : Nat
  value : Nat
  parent : Option Nat
  name : Option String
  root : Bool
  deriving DecidableEq, Repr

structure OidTree where
  next_id : Nat
  nodes : List OidTreeEntry
  deriving DecidableEq, Repr

/-- `OidTree::default()`: `next_id` starts at 1000 with an empty arena. -/
def OidTree.default : OidTree := ⟨1000, []⟩

/-- The component-walking loop shared by `find_oid`/`find_oid_mut`: walk the
components, matching each against a node whose `(parent, value)` pair fits,
and return the identity reached (`prior`). -/
def chainFind (nodes : List OidTreeEntry) : Option Nat → List Nat → Option (Option Nat)
  | prior, [] => some prior
  | prior, e :: rest =>
    match nodes.find? (fun n => n.parent == prior && n.value == e) with
    | some n => chainFind nodes (some n.id) rest
    | none => none

/-- `OidTree::find_oid` (`oidtree.rs` lines 202–215).  An empty `oid` makes
the Rust code panic on `prior.unwrap()`; modelled as `none`. -/
def find_oid (t : OidTree) (oid : List Nat) : Option OidTreeEntry :=
  match chainFind t.nodes none oid with
  | some (some i) => t.nodes.find? (fun n => n.id == i)
  | _ => none

/-- The node-population loop shared by `add_oid_under`/`add_oid_root`
(`oidtree.rs` lines 246–267 and 294–316): walk the components, reusing an
existing `(parent, value)` node or appending a fresh unnamed one. -/
def populate (nodes : List OidTreeEntry) (nid : Nat) (prior : Option Nat) :
    List Nat → List OidTreeEntry × Nat × Option Nat
  | [] => (nodes, nid, prior)
  | e :: rest =>
    match nodes.find? (fun n => n.parent == prior && n.value == e) with
    | some n => populate nodes nid (some n.id) rest
    | none =>
        populate (nodes ++ [⟨nid, e, prior, none, false⟩]) (nid + 1) (some nid) rest

/-- In-place mutation through `find_oid_mut`: update the first node whose
identity is `i` (Rust takes `&mut` to the first `iter_mut().find(..)` hit). -/
def updateNode (f : OidTreeEntry → OidTreeEntry) (i : Nat) :
    List OidTreeEntry → List OidTreeEntry
  | [] => []
  | n :: rest => if n.id = i then f n :: rest else n :: updateNode f i rest

/-- The terminal-node mutation of `add_oid_under`/`add_oid_root`: set the
`root` flag and attach the name. -/
def nameNode (name : String) (isRoot : Bool) (n : OidTreeEntry) : OidTreeEntry :=
  { n with root := isRoot, name := some name }

/-- The shared tail of `add_oid_under`/`add_oid_root`: after populating,
locate the terminal node through `find_oid_mut` (its `unwrap` cannot fail
because populate just ensured the chain exists) and name it. -/
def add_oid_finish (nodes1 : List OidTreeEntry) (nid1 : Nat) (full : List Nat)
    (name : String) (isRoot : Bool) : Except Err (OidTree × List Nat) :=
  match find_oid ⟨nid1, nodes1⟩ full with
  | none => .error .internalPanic
  | some ent =>
      .ok (⟨nid1, updateNode (nameNode name isRoot) ent.id nodes1⟩, full)

/-- `OidTree::add_oid_under` (`oidtree.rs` lines 232–280). -/
def add_oid_under (t : OidTree) (parent oid : List Nat) (name : String) :
    Except Err (OidTree × List Nat) :=
  if oid.isEmpty || name.isEmpty then .error .wontWork
  else
    match find_oid t parent with
    | none => .error (.oidNotFound parent)
    | some s =>
      add_oid_finish (populate t.nodes t.next_id (some s.id) oid).1
        (populate t.nodes t.next_id (some s.id) oid).2.1 (parent ++ oid)
        name false

/-- `OidTree::add_oid_root` (`oidtree.rs` lines 282–326). -/
def add_oid_root (t : OidTree) (oid : List Nat) (name : String) :
    Except Err (OidTree × List Nat) :=
  if oid.isEmpty || name.isEmpty then .error .wontWork
  else
    add_oid_finish (populate t.nodes t.next_id none oid).1
      (populate t.nodes t.next_id none oid).2.1 oid name true

/-- The anchor-search loop of `oid_name` (`oidtree.rs` lines 159–178): try
ever-shorter prefixes of the address, accumulating the stripped trailing
components as bare decimal strings. -/
def findAnchor (t : OidTree) (oid : List Nat) :
    Nat → List String → Except Err (OidTreeEntry × List String)
  | 0, _ => .error .anchorNotFound
  | n + 1, out =>
    match find_oid t (oid.take (n + 1)) with
    | some ent => .ok (ent, out)
    | none => findAnchor t oid n (toString (oid.getD n 0) :: out)

/-- The name-collection loop of `oid_name` (`oidtree.rs` lines 180–196):
climb the parent chain from the anchor, collecting each node's name (or bare
numeric component when unnamed), stopping at a root-flagged or parentless
node.  The accumulator is kept in final (root-first) order. -/
def climb (t : OidTree) : Nat → OidTreeEntry → List String → Except Err (List String)
  | 0, _, _ => .error .internalPanic
  | fuel + 1, ent, out =>
    let out1 := (ent.name.getD (toString ent.value)) :: out
    if ent.root then .ok out1
    else
      match ent.parent with
      | none => .ok out1
      | some p =>
        match t.nodes.find? (fun n => n.id == p) with
        | none => .error .internalPanic
        | some par => climb t fuel par out1

/-- `OidTree::oid_name` (`oidtree.rs` lines 153–200), producing the component
list of the `OidName` (whose rendering joins them with dots). -/
def oid_name (t : OidTree) (oid : List Nat) : Except Err (List String) :=
  match findAnchor t oid oid.length [] with
  | .error e => .error e
  | .ok (ent, out) => climb t (ent.id + 1) ent out

/-- `OidName::basename`: the last component (Rust indexes `len - 1`; the
component list produced by `oid_name` is never empty). -/
def basename (comps : List String) : String := comps.getLastD ""

/-- Split a character list on `.` (Rust `str::split('.')` semantics,
including empty pieces). -/
def splitChars : List Char → List (List Char)
  | [] => [[]]
  | c :: rest =>
    if c = '.' then [] :: splitChars rest
    else (c :: (splitChars rest).headD []) :: (splitChars rest).tail

/-- Join character lists with `.` (Rust `components.join(".")`, the `Display`
of `OidName`). -/
def joinChars : List (List Char) → List Char
  | [] => []
  | [x] => x
  | x :: rest => x ++ '.' :: joinChars rest

/-- Render an `OidName`'s components as the dotted string (`Display for
OidName`). -/
def renderName (comps : List String) : String :=
  String.mk (joinChars (comps.map String.data))

/-- The character alphabet accepted by `split_name`. -/
def nameOkChar (c : Char) : Bool := c.isAlphanum || c == '.' || c == '-'

/-- `split_name` (`oidtree.rs` lines 25–40). -/
def split_name (name : String) : Except Err (List String) :=
  if name.data.isEmpty || name.data.any (fun c => !(nameOkChar c)) then
    .error (.invalidName name)
  else if ((splitChars name.data).map String.mk).isEmpty then
    .error (.invalidName name)
  else .ok ((splitChars name.data).map String.mk)

/-- `OidTree::walk_down_under` (`oidtree.rs` lines 113–133): follow each name
component to a non-root child of the current node by sibling-scoped lookup. -/
def walk_down_under (t : OidTree) : OidTreeEntry → List String → Except Err OidTreeEntry
  | prior, [] => .ok prior
  | prior, nm :: rest =>
    match t.nodes.find? (fun n =>
        !n.root && n.name == some nm && n.parent == some prior.id) with
    | some next => walk_down_under t next rest
    | none => .error (.childNotFound nm)

/-- `OidTree::oid_for_node` (`oidtree.rs` lines 138–151): climb the parent
chain collecting component values, root-first.  Fuelled like `climb`. -/
def oid_for_node (t : OidTree) : Nat → OidTreeEntry → Except Err (List Nat)
  | 0, _ => .error .internalPanic
  | fuel + 1, ent =>
    match ent.parent with
    | none => .ok [ent.value]
    | some p =>
      match t.nodes.find? (fun n => n.id == p) with
      | none => .error .internalPanic
      | some par => (oid_for_node t fuel par).map (fun l => l ++ [ent.value])

/-- `OidTree::oid_by_name` (`oidtree.rs` lines 85–107). -/
def oid_by_name (t : OidTree) (name : String) : Except Err (List Nat) := do
  let comps ← split_name name
  match t.nodes.find? (fun n => n.root && n.name == some (comps.headD "")) with
  | none => .error (.rootNotFound (comps.headD ""))
  | some rootEnt => do
      let term ← walk_down_under t rootEnt comps.tail
      oid_for_node t (term.id + 1) term

/-- The decidable parent condition of tree well-formedness. -/
def parentOkB (t : OidTree) (n : OidTreeEntry) : Bool :=
  match n.parent with
  | none => true
  | some p => decide (p < n.id) && t.nodes.any (fun m => m.id == p)

/-- Well-formedness invariant of every tree reachable through the public
constructors (`OidTree::default` plus `add_oid_root`/`add_oid_under`): node
identities are pairwise distinct and below `next_id`, every parent reference
points to an existing node with a strictly smaller identity, and no two
nodes share a `(parent, value)` pair (spec §3 invariant 1). -/
def WF (t : OidTree) : Prop :=
  (t.nodes.map (fun n => n.id)).Nodup ∧
  (∀ n ∈ t.nodes, n.id < t.next_id ∧ parentOkB t n = true) ∧
  t.nodes.Pairwise (fun n m => n.parent ≠ m.parent ∨ n.value ≠ m.value)

instance (t : OidTree) : Decidable (WF t) := by
  unfold WF; infer_instance

/-! ## List search lemmas -/

theorem find?_append_some {α} {p : α → Bool} {l₁ l₂ : List α} {a : α}
    (h : l₁.find? p = some a) : (l₁ ++ l₂).find? p = some a := by
  induction l₁ with
  | nil => simp at h
  | cons x xs ih =>
    by_cases hp : p x
    · rw [List.find?_cons_of_pos _ hp] at h
      rw [List.cons_append, List.find?_cons_of_pos _ hp]
      exact h
    · rw [List.find?_cons_of_neg _ hp] at h
      rw [List.cons_append, List.find?_cons_of_neg _ hp]
      exact ih h

theorem find?_append_none {α} {p : α → Bool} {l₁ l₂ : List α}
    (h : l₁.find? p = none) : (l₁ ++ l₂).find? p = l₂.find? p := by
  induction l₁ with
  | nil => simp
  | cons x xs ih =>
    by_cases hp : p x
    · rw [List.find?_cons_of_pos _ hp] at h
      cases h
    · rw [List.find?_cons_of_neg _ hp] at h
      rw [List.cons_append, List.find?_cons_of_neg _ hp]
      exact ih h

theorem chainFind_append (ns ext : List OidTreeEntry) :
    ∀ (l : List Nat) (pr r : Option Nat), chainFind ns pr l = some r →
      chainFind (ns ++ ext) pr l = some r := by
  intro l
  induction l with
  | nil => intro pr r h; simpa [chainFind] using h
  | cons e rest ih =>
    intro pr r h
    rw [chainFind] at h ⊢
    cases hf : ns.find? (fun n => n.parent == pr && n.value == e) with
    | none => rw [hf] at h; cases h
    | some n => rw [hf] at h; rw [find?_append_some hf]; exact ih _ _ h

theorem chainFind_path (ns : List OidTreeEntry) :
    ∀ (l₁ l₂ : List Nat) (pr : Option Nat),
      chainFind ns pr (l₁ ++ l₂) =
        (chainFind ns pr l₁).bind (fun r => chainFind ns r l₂) := by
  intro l₁
  induction l₁ with
  | nil => intro l₂ pr; simp [chainFind]
  | cons e rest ih =>
    intro l₂ pr
    rw [List.cons_append, chainFind, chainFind]
    cases hf : ns.find? (fun n => n.parent == pr && n.value == e) with
    | none => simp
    | some n => exact ih _ _

/-! ## `find_oid` basics -/

theorem find_oid_mem {t : OidTree} {l : List Nat} {s : OidTreeEntry}
    (h : find_oid t l = some s) : s ∈ t.nodes := by
  unfold find_oid at h
  cases hc : chainFind t.nodes none l with
  | none => rw [hc] at h; cases h
  | some r =>
    cases r with
    | none => rw [hc] at h; cases h
    | some i => rw [hc] at h; exact List.mem_of_find?_eq_some h

theorem find_oid_chain {t : OidTree} {l : List Nat} {s : OidTreeEntry}
    (h : find_oid t l = some s) :
    chainFind t.nodes none l = some (some s.id) := by
  unfold find_oid at h
  cases hc : chainFind t.nodes none l with
  | none => rw [hc] at h; cases h
  | some r =>
    cases r with
    | none => rw [hc] at h; cases h
    | some i =>
      rw [hc] at h
      have := List.find?_some h
      simp only [beq_iff_eq] at this
      rw [this]

theorem find_oid_cons_isSome {t : OidTree} {x : Nat} {l : List Nat}
    (h : (find_oid t (x :: l)).isSome = true) :
    ∃ n ∈ t.nodes, n.parent = none ∧ n.value = x := by
  unfold find_oid at h
  rw [chainFind] at h
  cases hf : t.nodes.find? (fun n => n.parent == none && n.value == x) with
  | none => rw [hf] at h; simp at h
  | some n =>
    have hm := List.mem_of_find?_eq_some hf
    have hp := List.find?_some hf
    simp only [Bool.and_eq_true, beq_iff_eq] at hp
    exact ⟨n, hm, hp.1, hp.2⟩

theorem find_oid_singleton_isSome {t : OidTree} {x : Nat}
    (h : ∃ n ∈ t.nodes, n.parent = none ∧ n.value = x) :
    (find_oid t [x]).isSome = true := by
  obtain ⟨n, hm, hp, hv⟩ := h
  obtain ⟨m, hf⟩ : ∃ m,
      t.nodes.find? (fun n => n.parent == none && n.value == x) = some m := by
    have : (t.nodes.find? (fun n => n.parent == none && n.value == x)).isSome := by
      apply List.find?_isSome.mpr
      exact ⟨n, hm, by simp [hp, hv]⟩
    exact Option.isSome_iff_exists.mp this
  unfold find_oid
  have hc : chainFind t.nodes none [x] = some (some m.id) := by
    rw [chainFind, hf]; rfl
  rw [hc]
  exact List.find?_isSome.mpr ⟨m, List.mem_of_find?_eq_some hf, by simp⟩

/-! ## `oid_name` anchor and climb lemmas -/

theorem findAnchor_ok_spec (t : OidTree) (oid : List Nat) :
    ∀ (n : Nat) (out : List String) (ent : OidTreeEntry) (out' : List String),
      findAnchor t oid n out = .ok (ent, out') →
      ∃ k, 1 ≤ k ∧ k ≤ n ∧ find_oid t (oid.take k) = some ent := by
  intro n
  induction n with
  | zero => intro out ent out' h; simp [findAnchor] at h
  | succ n ih =>
    intro out ent out' h
    rw [findAnchor] at h
    cases hf : find_oid t (oid.take (n + 1)) with
    | some e =>
      rw [hf] at h
      obtain ⟨rfl, rfl⟩ : e = ent ∧ out = out' := by
        cases h; exact ⟨rfl, rfl⟩
      exact ⟨n + 1, by omega, le_refl _, hf⟩
    | none =>
      rw [hf] at h
      obtain ⟨k, h1, h2, h3⟩ := ih _ _ _ h
      exact ⟨k, h1, by omega, h3⟩

theorem findAnchor_ok_of_find (t : OidTree) (oid : List Nat) :
    ∀ (n : Nat) (out : List String) (k : Nat), 1 ≤ k → k ≤ n →
      (find_oid t (oid.take k)).isSome = true →
      ∃ r, findAnchor t oid n out = .ok r := by
  intro n
  induction n with
  | zero => intro out k h1 h2 _; omega
  | succ n ih =>
    intro out k h1 h2 hs
    rw [findAnchor]
    cases hf : find_oid t (oid.take (n + 1)) with
    | some e => exact ⟨(e, out), rfl⟩
    | none =>
      rcases Nat.lt_or_ge k (n + 1) with hk | hk
      · exact ih _ k h1 (by omega) hs
      · have : k = n + 1 := by omega
        subst this
        rw [hf] at hs
        cases hs

theorem climb_ok (t : OidTree) (hwf : WF t) :
    ∀ (i : Nat) (ent : OidTreeEntry), ent ∈ t.nodes → ent.id = i →
      ∀ (fuel : Nat), i < fuel → ∀ (out : List String),
        ∃ res, climb t fuel ent out = .ok res := by
  intro i
  induction i using Nat.strong_induction_on with
  | _ i ih =>
    intro ent hmem hid fuel hfuel out
    obtain ⟨f, rfl⟩ : ∃ f, fuel = f + 1 := ⟨fuel - 1, by omega⟩
    rw [climb]
    by_cases hr : ent.root
    · rw [if_pos hr]; exact ⟨_, rfl⟩
    · rw [if_neg hr]
      cases hp : ent.parent with
      | none => exact ⟨_, rfl⟩
      | some p =>
        obtain ⟨-, hpok⟩ := hwf.2.1 ent hmem
        rw [parentOkB, hp, Bool.and_eq_true, decide_eq_true_eq,
          List.any_eq_true] at hpok
        obtain ⟨hlt, m, hmm, hmid⟩ := hpok
        rw [beq_iff_eq] at hmid
        obtain ⟨par, hfind⟩ : ∃ par,
            t.nodes.find? (fun n => n.id == p) = some par :=
          Option.isSome_iff_exists.mp
            (List.find?_isSome.mpr ⟨m, hmm, by simp [hmid]⟩)
        have hparid : par.id = p := by
          have := List.find?_some hfind
          simpa using this
        have hparmem := List.mem_of_find?_eq_some hfind
        obtain ⟨res, hres⟩ := ih p (by omega) par hparmem hparid f (by omega)
          (ent.name.getD (toString ent.value) :: out)
        refine ⟨res, ?_⟩
        show (match t.nodes.find? (fun n => n.id == p) with
          | none => Except.error Err.internalPanic
          | some par =>
              climb t f par (ent.name.getD (toString ent.value) :: out))
            = Except.ok res
        rw [hfind]
        exact hres

/-- A concrete tree: the result of
`add_oid_root(default, [1,3,6,1], "internet")`. -/
def treeInternet : OidTree :=
  ⟨1004,
   [⟨1000, 1, none, none, false⟩,
    ⟨1001, 3, some 1000, none, false⟩,
    ⟨1002, 6, some 1001, none, false⟩,
    ⟨1003, 1, some 1002, some "internet", true⟩]⟩

/-- Counterexample for C3: a tree with a root node (`"internet"` at
`[1,3,6,1]`) on which `oid_name [2]` still fails with the
address-not-found error (`"cannot do it"`), because no top-level node has
component value `2`. -/
theorem oid_name_fails_despite_root_cex :
    add_oid_root OidTree.default [1, 3, 6, 1] "internet" =
      .ok (treeInternet, [1, 3, 6, 1]) ∧
    (∃ n ∈ treeInternet.nodes, n.root = true) ∧
    oid_name treeInternet [2] = .error .anchorNotFound := by
  refine ⟨by rfl, by decide, by rfl⟩

/-- C3 amended: on a well-formed tree, `oid_name` (`describe_address`)
succeeds exactly when the queried address is nonempty and some top-level
node (a node without a parent) carries its first component; a tree that
contains a root node can therefore still fail reverse lookup for addresses
whose first component matches no top-level node.  (The Rust code never
tries a zero-length prefix: it bails when the prefix length reaches
zero.) -/
theorem oid_name_root_anchor (t : OidTree) (oid : List Nat) (hwf : WF t) :
    (∃ comps, oid_name t oid = .ok comps) ↔
      oid ≠ [] ∧ ∃ n ∈ t.nodes, n.parent = none ∧ n.value = oid.headD 0 := by
  constructor
  · rintro ⟨comps, h⟩
    unfold oid_name at h
    cases ha : findAnchor t oid oid.length [] with
    | error e => rw [ha] at h; cases h
    | ok r =>
      obtain ⟨ent, out⟩ := r
      obtain ⟨k, hk1, hk2, hk3⟩ := findAnchor_ok_spec t oid _ _ _ _ ha
      have hne : oid ≠ [] := by
        intro h0
        subst h0
        simp at hk2
        omega
      refine ⟨hne, ?_⟩
      obtain ⟨x, rest, rfl⟩ : ∃ x rest, oid = x :: rest := by
        cases oid with
        | nil => exact absurd rfl hne
        | cons x rest => exact ⟨x, rest, rfl⟩
      obtain ⟨k', rfl⟩ : ∃ k', k = k' + 1 := ⟨k - 1, by omega⟩
      rw [List.take_succ_cons] at hk3
      have := find_oid_cons_isSome (t := t) (x := x) (l := rest.take k')
        (by rw [hk3]; rfl)
      simpa using this
  · rintro ⟨hne, hex⟩
    have h1 : (find_oid t (oid.take 1)).isSome = true := by
      obtain ⟨x, rest, rfl⟩ : ∃ x rest, oid = x :: rest := by
        cases oid with
        | nil => exact absurd rfl hne
        | cons x rest => exact ⟨x, rest, rfl⟩
      rw [List.take_succ_cons, List.take_zero]
      exact find_oid_singleton_isSome (by simpa using hex)
    obtain ⟨⟨ent, out⟩, ha⟩ := findAnchor_ok_of_find t oid oid.length [] 1
      (le_refl _)
      (by
        cases oid with
        | nil => exact absurd rfl hne
        | cons x r => exact Nat.succ_le_succ (Nat.zero_le _)) h1
    have hmem : ent ∈ t.nodes := by
      obtain ⟨k, -, -, h3⟩ := findAnchor_ok_spec t oid _ _ _ _ ha
      exact find_oid_mem h3
    obtain ⟨res, hres⟩ :=
      climb_ok t hwf ent.id ent hmem rfl (ent.id + 1) (by omega) out
    refine ⟨res, ?_⟩
    unfold oid_name
    rw [ha]
    exact hres

/-- Witness for the amended C3: on the concrete internet tree, an address
with a stripped numeric suffix still resolves to a name. -/
theorem oid_name_root_anchor_witness :
    ∃ comps, oid_name treeInternet [1, 3, 6, 1, 5, 2] = .ok comps :=
  (oid_name_root_anchor treeInternet [1, 3, 6, 1, 5, 2] (by decide)).mpr
    ⟨by decide, by decide⟩

/-! ## Insertion machinery: invariants of `populate` -/

structure PopInv (nodes : List OidTreeEntry) (nid : Nat) (prior : Option Nat) : Prop where
  nodup : (nodes.map (fun n => n.id)).Nodup
  lt : ∀ n ∈ nodes, n.id < nid
  parent_lt : ∀ n ∈ nodes, ∀ p, n.parent = some p → p < n.id
  prior_lt : ∀ i, prior = some i → i < nid

theorem populate_spec :
    ∀ (l : List Nat) (nodes : List OidTreeEntry) (nid : Nat) (prior : Option Nat),
      PopInv nodes nid prior →
      ∀ nodes' nid' prior', populate nodes nid prior l = (nodes', nid', prior') →
      PopInv nodes' nid' prior' ∧
      (∃ ext, nodes' = nodes ++ ext) ∧
      chainFind nodes' prior l = some prior' ∧
      (∀ j, prior' = some j → (∃ n ∈ nodes', n.id = j) ∨ prior = some j) ∧
      (l ≠ [] → ∀ i j, prior = some i → prior' = some j → i < j) := by
  intro l
  induction l with
  | nil =>
    intro nodes nid prior hinv nodes' nid' prior' h
    rw [populate] at h
    cases h
    exact ⟨hinv, ⟨[], by simp⟩, rfl, fun j hj => Or.inr hj,
      fun hne => absurd rfl hne⟩
  | cons e rest ih =>
    intro nodes nid prior hinv nodes' nid' prior' h
    rw [populate] at h
    cases hf : nodes.find? (fun n => n.parent == prior && n.value == e) with
    | some n =>
      rw [hf] at h
      have hnm := List.mem_of_find?_eq_some hf
      have hinv2 : PopInv nodes nid (some n.id) :=
        ⟨hinv.nodup, hinv.lt, hinv.parent_lt, by
          intro i hi
          injection hi with hi'
          subst hi'
          exact hinv.lt n hnm⟩
      obtain ⟨hinv', ⟨ext, hext⟩, hchain, hmemb, hstrict⟩ :=
        ih nodes nid (some n.id) hinv2 _ _ _ h
      refine ⟨hinv', ⟨ext, hext⟩, ?_, ?_, ?_⟩
      · rw [chainFind, hext, find?_append_some hf, ← hext]
        exact hchain
      · intro j hj
        rcases hmemb j hj with hm | heq
        · exact Or.inl hm
        · injection heq with heq'
          exact Or.inl ⟨n, by
            rw [hext]; exact List.mem_append_left _ hnm, heq'⟩
      · intro _ i j hi hj
        have hpred := List.find?_some hf
        rw [Bool.and_eq_true, beq_iff_eq, beq_iff_eq] at hpred
        have hi' : n.parent = some i := by rw [hpred.1, hi]
        have hlt : i < n.id := hinv.parent_lt n hnm i hi'
        cases rest with
        | nil =>
          rw [populate] at h
          cases h
          injection hj with hj'
          omega
        | cons r rs =>
          have := hstrict (by simp) n.id j rfl hj
          omega
    | none =>
      rw [hf] at h
      have hinv2 : PopInv (nodes ++ [⟨nid, e, prior, none, false⟩]) (nid + 1)
          (some nid) := by
        refine ⟨?_, ?_, ?_, ?_⟩
        · rw [List.map_append]
          refine List.Nodup.append hinv.nodup (List.nodup_singleton _) ?_
          intro x hx hx2
          simp only [List.map_cons, List.map_nil, List.mem_singleton] at hx2
          subst hx2
          obtain ⟨n, hn, hnid⟩ := List.mem_map.mp hx
          have := hinv.lt n hn
          omega
        · intro n hn
          rcases List.mem_append.mp hn with h1 | h2
          · have := hinv.lt n h1; omega
          · simp only [List.mem_singleton] at h2
            subst h2
            exact Nat.lt_succ_self nid
        · intro n hn q hq
          rcases List.mem_append.mp hn with h1 | h2
          · exact hinv.parent_lt n h1 q hq
          · simp only [List.mem_singleton] at h2
            subst h2
            exact hinv.prior_lt q hq
        · intro i hi
          injection hi with hi'
          omega
      obtain ⟨hinv', ⟨ext, hext⟩, hchain, hmemb, hstrict⟩ :=
        ih _ _ _ hinv2 _ _ _ h
      have hext2 : nodes' = nodes ++ ([⟨nid, e, prior, none, false⟩] ++ ext) := by
        rw [hext, List.append_assoc]
      have hnnmem : (⟨nid, e, prior, none, false⟩ : OidTreeEntry) ∈ nodes' := by
        rw [hext]
        exact List.mem_append_left _ (List.mem_append_right _ (by simp))
      refine ⟨hinv', ⟨_, hext2⟩, ?_, ?_, ?_⟩
      · rw [chainFind]
        have hfind' : nodes'.find?
            (fun n => n.parent == prior && n.value == e) =
            some ⟨nid, e, prior, none, false⟩ := by
          rw [hext2, find?_append_none hf, List.cons_append]
          exact List.find?_cons_of_pos _ (by simp)
        rw [hfind']
        exact hchain
      · intro j hj
        rcases hmemb j hj with hm | heq
        · exact Or.inl hm
        · injection heq with heq'
          exact Or.inl ⟨⟨nid, e, prior, none, false⟩, hnnmem, heq'⟩
      · intro _ i j hi hj
        have hilt : i < nid := hinv.prior_lt i hi
        cases rest with
        | nil =>
          rw [populate] at h
          cases h
          injection hj with hj'
          omega
        | cons r rs =>
          have := hstrict (by simp) nid j rfl hj
          omega

theorem populate_of_chainFind :
    ∀ (l : List Nat) (nodes : List OidTreeEntry) (nid : Nat) (pr r : Option Nat),
      chainFind nodes pr l = some r →
      populate nodes nid pr l = (nodes, nid, r) := by
  intro l
  induction l with
  | nil =>
    intro nodes nid pr r h
    rw [chainFind] at h
    injection h with h'
    rw [populate, h']
  | cons e rest ih =>
    intro nodes nid pr r h
    rw [chainFind] at h
    cases hf : nodes.find? (fun n => n.parent == pr && n.value == e) with
    | none => rw [hf] at h; cases h
    | some n =>
      rw [hf] at h
      rw [populate, hf]
      exact ih nodes nid (some n.id) r h

/-! ## Mutation machinery: `updateNode` congruence -/

def preservesKeys (f : OidTreeEntry → OidTreeEntry) : Prop :=
  ∀ n, (f n).id = n.id ∧ (f n).parent = n.parent ∧ (f n).value = n.value

theorem nameNode_preservesKeys (name : String) (isRoot : Bool) :
    preservesKeys (nameNode name isRoot) := fun _ => ⟨rfl, rfl, rfl⟩

theorem find?_updateNode_id {f : OidTreeEntry → OidTreeEntry}
    (hf : preservesKeys f) (q : OidTreeEntry → Bool)
    (hq : ∀ n, q (f n) = q n) (i : Nat) :
    ∀ ns : List OidTreeEntry,
      Option.map (fun n => n.id) ((updateNode f i ns).find? q) =
      Option.map (fun n => n.id) (ns.find? q) := by
  intro ns
  induction ns with
  | nil => rfl
  | cons n rest ih =>
    rw [updateNode]
    by_cases hid : n.id = i
    · rw [if_pos hid]
      by_cases hqn : q n = true
      · rw [List.find?_cons_of_pos _ (by rw [hq]; exact hqn),
          List.find?_cons_of_pos _ hqn]
        simp [(hf n).1]
      · rw [List.find?_cons_of_neg _ (by rw [hq]; exact hqn),
          List.find?_cons_of_neg _ hqn]
    · rw [if_neg hid]
      by_cases hqn : q n = true
      · rw [List.find?_cons_of_pos _ hqn, List.find?_cons_of_pos _ hqn]
      · rw [List.find?_cons_of_neg _ hqn, List.find?_cons_of_neg _ hqn]
        exact ih

theorem chainFind_updateNode {f : OidTreeEntry → OidTreeEntry}
    (hf : preservesKeys f) (i : Nat) (ns : List OidTreeEntry) :
    ∀ (l : List Nat) (pr : Option Nat),
      chainFind (updateNode f i ns) pr l = chainFind ns pr l := by
  intro l
  induction l with
  | nil => intro pr; rfl
  | cons e rest ih =>
    intro pr
    rw [chainFind, chainFind]
    have hmaps := find?_updateNode_id hf
      (fun n => n.parent == pr && n.value == e)
      (fun n => by simp only [(hf n).2.1, (hf n).2.2]) i ns
    cases h1 : (updateNode f i ns).find?
        (fun n => n.parent == pr && n.value == e) with
    | none =>
      cases h2 : ns.find? (fun n => n.parent == pr && n.value == e) with
      | none => rfl
      | some m => rw [h1, h2] at hmaps; cases hmaps
    | some m1 =>
      cases h2 : ns.find? (fun n => n.parent == pr && n.value == e) with
      | none => rw [h1, h2] at hmaps; cases hmaps
      | some m2 =>
        rw [h1, h2] at hmaps
        have hmid : m1.id = m2.id := by simpa using hmaps
        show chainFind (updateNode f i ns) (some m1.id) rest =
          chainFind ns (some m2.id) rest
        rw [hmid]
        exact ih _

theorem find?_updateNode_self {f : OidTreeEntry → OidTreeEntry}
    (hf : preservesKeys f) (i : Nat) :
    ∀ ns : List OidTreeEntry,
      (updateNode f i ns).find? (fun n => n.id == i) =
        (ns.find? (fun n => n.id == i)).map f := by
  intro ns
  induction ns with
  | nil => rfl
  | cons n rest ih =>
    rw [updateNode]
    by_cases hid : n.id = i
    · rw [if_pos hid]
      rw [List.find?_cons_of_pos _ (by simp [(hf n).1, hid]),
        List.find?_cons_of_pos _ (by simp [hid])]
      rfl
    · rw [if_neg hid]
      rw [List.find?_cons_of_neg _ (by simp [hid]),
        List.find?_cons_of_neg _ (by simp [hid])]
      exact ih

theorem updateNode_idem {f : OidTreeEntry → OidTreeEntry}
    (hf : preservesKeys f) (hff : ∀ n, f (f n) = f n) (i : Nat) :
    ∀ ns, updateNode f i (updateNode f i ns) = updateNode f i ns := by
  intro ns
  induction ns with
  | nil => rfl
  | cons n rest ih =>
    rw [updateNode]
    by_cases hid : n.id = i
    · rw [if_pos hid, updateNode, if_pos (by rw [(hf n).1]; exact hid), hff]
    · rw [if_neg hid, updateNode, if_neg hid, ih]

theorem mem_id_unique {ns : List OidTreeEntry}
    (hnodup : (ns.map (fun n => n.id)).Nodup) {a b : OidTreeEntry}
    (ha : a ∈ ns) (hb : b ∈ ns) (hid : a.id = b.id) : a = b :=
  List.inj_on_of_nodup_map hnodup ha hb hid

theorem find_oid_intro {t : OidTree} {l : List Nat} {j : Nat}
    {s : OidTreeEntry} (h1 : chainFind t.nodes none l = some (some j))
    (h2 : t.nodes.find? (fun n => n.id == j) = some s) :
    find_oid t l = some s := by
  unfold find_oid
  rw [h1]
  exact h2

/-- C7: idempotent insertion — when `add_oid_under` on a well-formed tree
succeeds, calling it again with identical parent address, relative suffix and
name succeeds, returns the same resulting absolute address, and leaves the
tree (in particular its node collection) unchanged.  `WF` is the invariant
of every tree reachable through `OidTree::default` and the public insertion
functions. -/
theorem add_oid_under_idempotent (t t' : OidTree) (p o : List Nat)
    (nm : String) (a : List Nat) (hwf : WF t)
    (h : add_oid_under t p o nm = .ok (t', a)) :
    add_oid_under t' p o nm = .ok (t', a) := by
  unfold add_oid_under at h ⊢
  by_cases hguard : (o.isEmpty || nm.isEmpty) = true
  · rw [if_pos hguard] at h
    cases h
  · rw [if_neg hguard] at h
    rw [if_neg hguard]
    cases hs : find_oid t p with
    | none => rw [hs] at h; cases h
    | some s =>
      rw [hs] at h
      replace h : add_oid_finish (populate t.nodes t.next_id (some s.id) o).1
          (populate t.nodes t.next_id (some s.id) o).2.1 (p ++ o) nm false =
          .ok (t', a) := h
      obtain ⟨ns, nid1, pr1, hpop⟩ : ∃ ns nid1 pr1,
          populate t.nodes t.next_id (some s.id) o = (ns, nid1, pr1) :=
        ⟨_, _, _, rfl⟩
      have hp1 : (populate t.nodes t.next_id (some s.id) o).1 = ns := by
        rw [hpop]
      have hp2 : (populate t.nodes t.next_id (some s.id) o).2.1 = nid1 := by
        rw [hpop]
      rw [hp1, hp2] at h
      unfold add_oid_finish at h
      cases hent : find_oid ⟨nid1, ns⟩ (p ++ o) with
      | none => rw [hent] at h; cases h
      | some ent =>
        rw [hent] at h
        injection h with h'
        injection h' with ht ha
        subst ht
        subst ha
        have hsmem : s ∈ t.nodes := find_oid_mem hs
        have hschain : chainFind t.nodes none p = some (some s.id) :=
          find_oid_chain hs
        have hinv : PopInv t.nodes t.next_id (some s.id) := by
          refine ⟨hwf.1, fun n hn => (hwf.2.1 n hn).1, ?_, ?_⟩
          · intro n hn q hq
            have hpb := (hwf.2.1 n hn).2
            rw [parentOkB, hq, Bool.and_eq_true, decide_eq_true_eq] at hpb
            exact hpb.1
          · intro i hi
            injection hi with hi'
            subst hi'
            exact (hwf.2.1 s hsmem).1
        obtain ⟨hinv', ⟨ext, hext⟩, hchain, -, -⟩ :=
          populate_spec o t.nodes t.next_id (some s.id) hinv ns nid1 pr1 hpop
        have hentchain : chainFind ns none (p ++ o) = some (some ent.id) :=
          find_oid_chain hent
        have hentmem : ent ∈ ns := find_oid_mem hent
        have hchainp : chainFind ns none p = some (some s.id) := by
          rw [hext]
          exact chainFind_append t.nodes ext p none (some s.id) hschain
        have hpr1 : pr1 = some ent.id := by
          have h2 : chainFind ns none (p ++ o) = some pr1 := by
            rw [chainFind_path, hchainp]
            exact hchain
          rw [hentchain] at h2
          injection h2 with h2'
          exact h2'.symm
        subst hpr1
        have hpk := nameNode_preservesKeys nm false
        have hchain2 : chainFind (updateNode (nameNode nm false) ent.id ns)
            none p = some (some s.id) := by
          rw [chainFind_updateNode hpk]
          exact hchainp
        obtain ⟨s2, hs2find, hs2id⟩ : ∃ s2,
            (updateNode (nameNode nm false) ent.id ns).find?
              (fun n => n.id == s.id) = some s2 ∧ s2.id = s.id := by
          obtain ⟨m, hm⟩ : ∃ m, ns.find? (fun n => n.id == s.id) = some m :=
            Option.isSome_iff_exists.mp (List.find?_isSome.mpr
              ⟨s, by rw [hext]; exact List.mem_append_left _ hsmem, by simp⟩)
          have hmaps := find?_updateNode_id hpk (fun n => n.id == s.id)
            (fun n => by simp only [(hpk n).1]) ent.id ns
          rw [hm] at hmaps
          cases h1 : (updateNode (nameNode nm false) ent.id ns).find?
              (fun n => n.id == s.id) with
          | none => rw [h1] at hmaps; cases hmaps
          | some s2 =>
            rw [h1] at hmaps
            have hs2m : s2.id = m.id := by simpa using hmaps
            have hmid : m.id = s.id := by simpa using List.find?_some hm
            exact ⟨s2, rfl, by rw [hs2m, hmid]⟩
        have hfo2 : find_oid
            (⟨nid1, updateNode (nameNode nm false) ent.id ns⟩ : OidTree) p =
            some s2 := find_oid_intro hchain2 hs2find
        rw [hfo2]
        show add_oid_finish
          (populate (updateNode (nameNode nm false) ent.id ns) nid1
            (some s2.id) o).1
          (populate (updateNode (nameNode nm false) ent.id ns) nid1
            (some s2.id) o).2.1
          (p ++ o) nm false =
          .ok (⟨nid1, updateNode (nameNode nm false) ent.id ns⟩, p ++ o)
        have hchain3 : chainFind (updateNode (nameNode nm false) ent.id ns)
            (some s2.id) o = some (some ent.id) := by
          rw [hs2id, chainFind_updateNode hpk]
          exact hchain
        have hpop2 := populate_of_chainFind o
          (updateNode (nameNode nm false) ent.id ns) nid1 (some s2.id)
          (some ent.id) hchain3
        have hq1 : (populate (updateNode (nameNode nm false) ent.id ns) nid1
            (some s2.id) o).1 = updateNode (nameNode nm false) ent.id ns := by
          rw [hpop2]
        have hq2 : (populate (updateNode (nameNode nm false) ent.id ns) nid1
            (some s2.id) o).2.1 = nid1 := by
          rw [hpop2]
        rw [hq1, hq2]
        unfold add_oid_finish
        have hchain4 : chainFind (updateNode (nameNode nm false) ent.id ns)
            none (p ++ o) = some (some ent.id) := by
          rw [chainFind_updateNode hpk]
          exact hentchain
        have hnsent : ns.find? (fun n => n.id == ent.id) = some ent := by
          cases hfe : ns.find? (fun n => n.id == ent.id) with
          | none =>
            have hsome : (ns.find? (fun n => n.id == ent.id)).isSome :=
              List.find?_isSome.mpr ⟨ent, hentmem, by simp⟩
            rw [hfe] at hsome
            cases hsome
          | some m =>
            have hmmem := List.mem_of_find?_eq_some hfe
            have hmid : m.id = ent.id := by simpa using List.find?_some hfe
            rw [mem_id_unique hinv'.nodup hmmem hentmem hmid]
        have hupfind : (updateNode (nameNode nm false) ent.id ns).find?
            (fun n => n.id == ent.id) = some (nameNode nm false ent) := by
          rw [find?_updateNode_self hpk, hnsent]
          rfl
        have hfo3 : find_oid
            (⟨nid1, updateNode (nameNode nm false) ent.id ns⟩ : OidTree)
            (p ++ o) = some (nameNode nm false ent) :=
          find_oid_intro hchain4 hupfind
        rw [hfo3]
        show Except.ok
          ((⟨nid1, updateNode (nameNode nm false) ent.id
            (updateNode (nameNode nm false) ent.id ns)⟩ : OidTree), p ++ o) =
          Except.ok
            ((⟨nid1, updateNode (nameNode nm false) ent.id ns⟩ : OidTree),
              p ++ o)
        rw [updateNode_idem hpk (fun n => rfl) ent.id ns]

/-- Witness for C7 at a concrete tree: after `add_oid_root [1] "a"` and
`add_oid_under [1] [2] "x"`, repeating the `add_oid_under` returns the same
address `[1,2]` and the identical tree. -/
theorem add_oid_under_idempotent_witness :
    add_oid_under
      (⟨1002, [⟨1000, 1, none, some "a", true⟩,
        ⟨1001, 2, some 1000, some "x", false⟩]⟩ : OidTree) [1] [2] "x" =
      .ok (⟨1002, [⟨1000, 1, none, some "a", true⟩,
        ⟨1001, 2, some 1000, some "x", false⟩]⟩, [1, 2]) :=
  add_oid_under_idempotent
    (⟨1001, [⟨1000, 1, none, some "a", true⟩]⟩ : OidTree)
    (⟨1002, [⟨1000, 1, none, some "a", true⟩,
      ⟨1001, 2, some 1000, some "x", false⟩]⟩ : OidTree)
    [1] [2] "x" [1, 2] (by decide) (by rfl)

/-! ## Parent-linked chains (round-trip machinery)

`Linked nodes pr ch` says `ch` is a path in the arena: every entry is a
member, the first entry's parent is `pr`, and each later entry's parent is
the previous entry's identity.  `chainTip pr ch` is the identity reached at
the end of the path. -/

def Linked (nodes : List OidTreeEntry) : Option Nat → List OidTreeEntry → Prop
  | _, [] => True
  | pr, c :: rest => c ∈ nodes ∧ c.parent = pr ∧ Linked nodes (some c.id) rest

instance instDecidableLinked (nodes : List OidTreeEntry) :
    ∀ (pr : Option Nat) (ch : List OidTreeEntry), Decidable (Linked nodes pr ch)
  | _, [] => isTrue trivial
  | pr, c :: rest => by
      unfold Linked
      have := instDecidableLinked nodes (some c.id) rest
      infer_instance

def chainTip (pr : Option Nat) : List OidTreeEntry → Option Nat
  | [] => pr
  | c :: rest => chainTip (some c.id) rest

theorem chainTip_append (pr : Option Nat) :
    ∀ (ch1 ch2 : List OidTreeEntry),
      chainTip pr (ch1 ++ ch2) = chainTip (chainTip pr ch1) ch2 := by
  intro ch1
  induction ch1 generalizing pr with
  | nil => intro ch2; rfl
  | cons c rest ih => intro ch2; rw [List.cons_append, chainTip, chainTip, ih]

theorem chainTip_getLast? {ch : List OidTreeEntry} {c : OidTreeEntry}
    (h : ch.getLast? = some c) : ∀ pr, chainTip pr ch = some c.id := by
  induction ch with
  | nil => cases h
  | cons c0 rest ih =>
    intro pr
    cases rest with
    | nil =>
      have : c0 = c := by
        have h0 : ([c0] : List OidTreeEntry).getLast? = some c0 := rfl
        rw [h0] at h
        injection h
      subst this
      rfl
    | cons y ys =>
      rw [List.getLast?_cons_cons] at h
      rw [chainTip]
      exact ih h _

theorem getLast?_mem {α} : ∀ {ch : List α} {c : α}, ch.getLast? = some c → c ∈ ch := by
  intro ch
  induction ch with
  | nil => intro c h; cases h
  | cons c0 rest ih =>
    intro c h
    cases rest with
    | nil =>
      have h0 : ([c0] : List α).getLast? = some c0 := rfl
      rw [h0] at h
      injection h with h'
      simp [h']
    | cons y ys =>
      rw [List.getLast?_cons_cons] at h
      exact List.mem_cons_of_mem _ (ih h)

theorem linked_mem {nodes : List OidTreeEntry} :
    ∀ {ch : List OidTreeEntry} {pr : Option Nat}, Linked nodes pr ch →
      ∀ c ∈ ch, c ∈ nodes := by
  intro ch
  induction ch with
  | nil => intro pr _ c hc; cases hc
  | cons x rest ih =>
    intro pr hl c hc
    rcases List.mem_cons.mp hc with rfl | hc2
    · exact hl.1
    · exact ih hl.2.2 c hc2

theorem linked_append {nodes : List OidTreeEntry} :
    ∀ (ch1 ch2 : List OidTreeEntry) (pr : Option Nat),
      Linked nodes pr (ch1 ++ ch2) ↔
        Linked nodes pr ch1 ∧ Linked nodes (chainTip pr ch1) ch2 := by
  intro ch1
  induction ch1 with
  | nil =>
    intro ch2 pr
    exact ⟨fun h => ⟨trivial, h⟩, fun h => h.2⟩
  | cons x rest ih =>
    intro ch2 pr
    rw [List.cons_append]
    show (x ∈ nodes ∧ x.parent = pr ∧ Linked nodes (some x.id) (rest ++ ch2)) ↔
      (x ∈ nodes ∧ x.parent = pr ∧ Linked nodes (some x.id) rest) ∧
        Linked nodes (chainTip pr (x :: rest)) ch2
    rw [ih ch2 (some x.id)]
    show _ ↔ _ ∧ Linked nodes (chainTip (some x.id) rest) ch2
    tauto

theorem getLast?_append_right {α} {ch2 : List α} {c : α}
    (h : ch2.getLast? = some c) (ch1 : List α) :
    (ch1 ++ ch2).getLast? = some c := by
  induction ch1 with
  | nil => simpa using h
  | cons x rest ih =>
    rw [List.cons_append, List.getLast?_cons, ih]
    cases hr : rest ++ ch2 with
    | nil =>
      exfalso
      rcases List.append_eq_nil.mp hr with ⟨-, rfl⟩
      cases h
    | cons z zs => simp

/-- In a tree whose node set satisfies the spec invariant "no two nodes share
a `(parent, value)` pair", two members with equal parent and value coincide. -/
theorem pv_unique {t : OidTree} (hwf : WF t) {a b : OidTreeEntry}
    (ha : a ∈ t.nodes) (hb : b ∈ t.nodes) (hp : a.parent = b.parent)
    (hv : a.value = b.value) : a = b := by
  by_contra hne
  have hsym : Symmetric (fun n m : OidTreeEntry =>
      n.parent ≠ m.parent ∨ n.value ≠ m.value) := by
    intro x y hxy
    exact hxy.imp Ne.symm Ne.symm
  have := List.Pairwise.forall hsym hwf.2.2 ha hb hne
  rcases this with hne' | hne'
  · exact hne' hp
  · exact hne' hv

theorem find?_pred_unique {ns : List OidTreeEntry} {q : OidTreeEntry → Bool}
    {c : OidTreeEntry} (hc : c ∈ ns) (hqc : q c = true)
    (huniq : ∀ m ∈ ns, q m = true → m = c) : ns.find? q = some c := by
  cases hf : ns.find? q with
  | none =>
    have hsome := List.find?_isSome.mpr ⟨c, hc, hqc⟩
    rw [hf] at hsome
    cases hsome
  | some m =>
    rw [huniq m (List.mem_of_find?_eq_some hf) (List.find?_some hf)]

theorem chainFind_of_linked {t : OidTree} (hwf : WF t) :
    ∀ (ch : List OidTreeEntry) (pr : Option Nat), Linked t.nodes pr ch →
      chainFind t.nodes pr (ch.map (fun c => c.value)) =
        some (chainTip pr ch) := by
  intro ch
  induction ch with
  | nil => intro pr _; rfl
  | cons c rest ih =>
    intro pr hl
    obtain ⟨hcm, hcp, hlr⟩ := hl
    rw [List.map_cons, chainFind]
    have hfind : t.nodes.find?
        (fun n => n.parent == pr && n.value == c.value) = some c := by
      apply find?_pred_unique hcm (by simp [hcp])
      intro m hm hqm
      rw [Bool.and_eq_true, beq_iff_eq, beq_iff_eq] at hqm
      exact pv_unique hwf hm hcm (by rw [hqm.1, hcp]) hqm.2
    rw [hfind]
    exact ih (some c.id) hlr

/-- Collecting names by climbing from the last entry of a root-headed chain
segment yields exactly the segment's rendered names. -/
theorem climb_linked (t : OidTree) (hwf : WF t) :
    ∀ (back : List OidTreeEntry) (cj clast : OidTreeEntry) (pr : Option Nat),
      Linked t.nodes pr (cj :: back) →
      cj.root = true →
      (∀ c ∈ back, c.root = false) →
      (cj :: back).getLast? = some clast →
      ∀ fuel, clast.id < fuel → ∀ out,
        climb t fuel clast out =
          .ok (((cj :: back).map (fun c => c.name.getD (toString c.value)))
            ++ out) := by
  intro back
  induction back using List.reverseRecOn with
  | nil =>
    intro cj clast pr hl hroot _ hlast fuel hfuel out
    obtain ⟨f, rfl⟩ : ∃ f, fuel = f + 1 := ⟨fuel - 1, by omega⟩
    have hcl : clast = cj := by
      have h0 : ([cj] : List OidTreeEntry).getLast? = some cj := rfl
      rw [h0] at hlast
      injection hlast with h'
      exact h'.symm
    subst hcl
    rw [climb, if_pos hroot]
    simp
  | append_singleton bs c ih =>
    intro cj clast pr hl hroot hnoroot hlast fuel hfuel out
    obtain ⟨f, rfl⟩ : ∃ f, fuel = f + 1 := ⟨fuel - 1, by omega⟩
    have hconc : cj :: (bs ++ [c]) = (cj :: bs) ++ [c] :=
      (List.cons_append cj bs [c]).symm
    have hlastc : clast = c := by
      rw [hconc, getLast?_append_right
        (show ([c] : List OidTreeEntry).getLast? = some c from rfl)] at hlast
      injection hlast with h'
      exact h'.symm
    subst clast
    have hdecomp := (linked_append (cj :: bs) [c] pr).mp (by rw [← hconc]; exact hl)
    obtain ⟨hl1, hl2⟩ := hdecomp
    obtain ⟨prev, hprev⟩ : ∃ prev, (cj :: bs).getLast? = some prev := by
      cases hbs : (cj :: bs).getLast? with
      | none => rw [List.getLast?_eq_none_iff] at hbs; cases hbs
      | some prev => exact ⟨prev, rfl⟩
    rw [chainTip_getLast? hprev] at hl2
    obtain ⟨hcm, hcp, -⟩ := hl2
    have hcroot : c.root = false := hnoroot c (by simp)
    have hprevmem : prev ∈ t.nodes :=
      linked_mem hl1 prev (getLast?_mem hprev)
    rw [climb, if_neg (by simp [hcroot]), hcp]
    have hfind : t.nodes.find? (fun n => n.id == prev.id) = some prev := by
      apply find?_pred_unique hprevmem (by simp)
      intro m hm hqm
      rw [beq_iff_eq] at hqm
      exact mem_id_unique hwf.1 hm hprevmem hqm
    show (match t.nodes.find? (fun n => n.id == prev.id) with
      | none => Except.error Err.internalPanic
      | some par => climb t f par (c.name.getD (toString c.value) :: out)) =
      Except.ok
        (List.map (fun x => x.name.getD (toString x.value)) (cj :: (bs ++ [c]))
          ++ out)
    rw [hfind]
    have hprevlt : prev.id < c.id := by
      have hpb := (hwf.2.1 c hcm).2
      rw [parentOkB, hcp, Bool.and_eq_true, decide_eq_true_eq] at hpb
      exact hpb.1
    have hih := ih cj prev pr hl1 hroot
      (fun x hx => hnoroot x (by simp [hx])) hprev f (by omega)
      (c.name.getD (toString c.value) :: out)
    show climb t f prev (c.name.getD (toString c.value) :: out) =
      Except.ok
        (List.map (fun x => x.name.getD (toString x.value)) (cj :: (bs ++ [c]))
          ++ out)
    rw [hih]
    simp

theorem getLast?_getD_cons {α} (a : α) (l : List α) (d e : α) :
    ((a :: l).getLast?.getD d) = ((a :: l).getLast?.getD e) := by
  cases h : (a :: l).getLast? with
  | none =>
    exfalso
    rw [List.getLast?_eq_none_iff] at h
    cases h
  | some x => rfl

/-- Descending by sibling-scoped name lookup along a chain segment whose
lookups are unambiguous lands on the segment's last entry. -/
theorem walk_down_linked (t : OidTree) :
    ∀ (back : List OidTreeEntry) (cj : OidTreeEntry) (nms : List String),
      back.map (fun c => c.name) = nms.map some →
      (∀ pc ∈ (cj :: back).zip back,
        t.nodes.find? (fun n =>
          !n.root && n.name == pc.2.name && n.parent == some pc.1.id) =
          some pc.2) →
      walk_down_under t cj nms = .ok ((cj :: back).getLast?.getD cj) := by
  intro back
  induction back with
  | nil =>
    intro cj nms hn _
    have : nms = [] := by
      cases nms with
      | nil => rfl
      | cons a b => cases hn
    subst this
    rfl
  | cons c bs ih =>
    intro cj nms hn hfind
    cases nms with
    | nil => cases hn
    | cons nm rest =>
      rw [List.map_cons, List.map_cons] at hn
      injection hn with hn1 hn2
      rw [walk_down_under]
      have hf := hfind (cj, c) (by rw [List.zip_cons_cons]; simp)
      rw [show (fun n : OidTreeEntry =>
          !n.root && n.name == (c, cj).1.name && n.parent == some cj.id) =
          (fun n : OidTreeEntry =>
          !n.root && n.name == some nm && n.parent == some cj.id) from by
        rw [show (c, cj).1.name = some nm from hn1]] at hf
      rw [hf]
      show walk_down_under t c rest =
        Except.ok ((cj :: c :: bs).getLast?.getD cj)
      have hih := ih c rest hn2 (fun pc hpc => hfind pc
        (by rw [List.zip_cons_cons]; exact List.mem_cons_of_mem _ hpc))
      rw [hih]
      cases bs with
      | nil => rfl
      | cons y ys =>
        rw [show (cj :: c :: y :: ys).getLast? = (c :: y :: ys).getLast? from
          List.getLast?_cons_cons, getLast?_getD_cons c (y :: ys) c cj]

/-- Rebuilding the numeric address by climbing parents from the last entry of
a full chain yields the chain's component values. -/
theorem oid_for_node_linked (t : OidTree) (hwf : WF t) :
    ∀ (ch : List OidTreeEntry) (clast : OidTreeEntry),
      Linked t.nodes none ch → ch.getLast? = some clast →
      ∀ fuel, clast.id < fuel →
        oid_for_node t fuel clast = .ok (ch.map (fun c => c.value)) := by
  intro ch
  induction ch using List.reverseRecOn with
  | nil => intro clast _ hlast; cases hlast
  | append_singleton cs c ih =>
    intro clast hl hlast fuel hfuel
    have hlastc : clast = c := by
      rw [getLast?_append_right
        (show ([c] : List OidTreeEntry).getLast? = some c from rfl)] at hlast
      injection hlast with h'
      exact h'.symm
    subst clast
    obtain ⟨f, rfl⟩ : ∃ f, fuel = f + 1 := ⟨fuel - 1, by omega⟩
    obtain ⟨hl1, hl2⟩ := (linked_append cs [c] none).mp hl
    cases hcs : cs.getLast? with
    | none =>
      rw [List.getLast?_eq_none_iff] at hcs
      subst hcs
      obtain ⟨-, hcp, -⟩ : c ∈ t.nodes ∧ c.parent = none ∧ True := hl2
      rw [oid_for_node, hcp]
      rfl
    | some prev =>
      rw [chainTip_getLast? hcs] at hl2
      obtain ⟨hcm, hcp, -⟩ := hl2
      have hprevmem : prev ∈ t.nodes :=
        linked_mem hl1 prev (getLast?_mem hcs)
      rw [oid_for_node, hcp]
      have hfind : t.nodes.find? (fun n => n.id == prev.id) = some prev := by
        apply find?_pred_unique hprevmem (by simp)
        intro m hm hqm
        rw [beq_iff_eq] at hqm
        exact mem_id_unique hwf.1 hm hprevmem hqm
      show (match t.nodes.find? (fun n => n.id == prev.id) with
        | none => Except.error Err.internalPanic
        | some par => (oid_for_node t f par).map (fun l => l ++ [c.value])) =
        Except.ok (List.map (fun x => x.value) (cs ++ [c]))
      rw [hfind]
      have hprevlt : prev.id < c.id := by
        have hpb := (hwf.2.1 c hcm).2
        rw [parentOkB, hcp, Bool.and_eq_true, decide_eq_true_eq] at hpb
        exact hpb.1
      show (oid_for_node t f prev).map (fun l => l ++ [c.value]) =
        Except.ok (List.map (fun x => x.value) (cs ++ [c]))
      rw [ih prev hl1 hcs f (by omega)]
      simp only [List.map_append, List.map_cons, List.map_nil]
      rfl

/-! ## Dotted-name rendering and parsing lemmas -/

theorem splitChars_no_dot : ∀ (x : List Char), '.' ∉ x → splitChars x = [x] := by
  intro x
  induction x with
  | nil => intro _; rfl
  | cons ch rest ih =>
    intro h
    have hch : ¬ ch = '.' := fun hc => h (by simp [hc])
    rw [splitChars, if_neg hch, ih (fun hm => h (List.mem_cons_of_mem _ hm))]
    rfl

theorem splitChars_append_dot : ∀ (x ys : List Char), '.' ∉ x →
    splitChars (x ++ '.' :: ys) = x :: splitChars ys := by
  intro x
  induction x with
  | nil => intro ys _; rw [List.nil_append, splitChars, if_pos rfl]
  | cons ch rest ih =>
    intro ys h
    have hch : ¬ ch = '.' := fun hc => h (by simp [hc])
    rw [List.cons_append, splitChars, if_neg hch,
      ih ys (fun hm => h (List.mem_cons_of_mem _ hm))]
    rfl

theorem splitChars_join : ∀ (ls : List (List Char)), ls ≠ [] →
    (∀ x ∈ ls, '.' ∉ x) → splitChars (joinChars ls) = ls := by
  intro ls
  induction ls with
  | nil => intro h; exact absurd rfl h
  | cons x rest ih =>
    intro _ hnd
    cases rest with
    | nil =>
      show splitChars (joinChars [x]) = [x]
      rw [show joinChars [x] = x from rfl]
      exact splitChars_no_dot x (hnd x (by simp))
    | cons y ys =>
      rw [show joinChars (x :: y :: ys) = x ++ '.' :: joinChars (y :: ys)
        from rfl]
      rw [splitChars_append_dot _ _ (hnd x (by simp))]
      rw [ih (by simp) (fun z hz => hnd z (List.mem_cons_of_mem _ hz))]

theorem mem_joinChars : ∀ (ls : List (List Char)) (c : Char),
    c ∈ joinChars ls → (∃ x ∈ ls, c ∈ x) ∨ c = '.' := by
  intro ls
  induction ls with
  | nil => intro c h; cases h
  | cons x rest ih =>
    intro c h
    cases rest with
    | nil =>
      left
      exact ⟨x, by simp, by rw [show joinChars [x] = x from rfl] at h; exact h⟩
    | cons y ys =>
      rw [show joinChars (x :: y :: ys) = x ++ '.' :: joinChars (y :: ys)
        from rfl] at h
      rcases List.mem_append.mp h with h1 | h2
      · exact Or.inl ⟨x, by simp, h1⟩
      · rcases List.mem_cons.mp h2 with rfl | h3
        · exact Or.inr rfl
        · rcases ih c h3 with ⟨z, hz, hcz⟩ | hdot
          · exact Or.inl ⟨z, List.mem_cons_of_mem _ hz, hcz⟩
          · exact Or.inr hdot

theorem joinChars_cons_ne_nil (x : List Char) (rest : List (List Char))
    (hx : x ≠ []) : joinChars (x :: rest) ≠ [] := by
  cases rest with
  | nil => exact hx
  | cons y ys =>
    rw [show joinChars (x :: y :: ys) = x ++ '.' :: joinChars (y :: ys)
      from rfl]
    intro h
    rcases List.append_eq_nil.mp h with ⟨-, h2⟩
    cases h2

theorem map_name_getD : ∀ (l : List OidTreeEntry) (ns : List String),
    l.map (fun c => c.name) = ns.map some →
    l.map (fun c => c.name.getD (toString c.value)) = ns := by
  intro l
  induction l with
  | nil =>
    intro ns h
    cases ns with
    | nil => rfl
    | cons a b => cases h
  | cons c rest ih =>
    intro ns h
    cases ns with
    | nil => cases h
    | cons nm nrest =>
      rw [List.map_cons, List.map_cons] at h
      injection h with h1 h2
      rw [List.map_cons, h1, ih nrest h2]
      rfl

/-- Parsing the rendered dotted name of syntactically clean components gives
back the components. -/
theorem split_name_render (names : List String) (hne : names ≠ [])
    (hsyn : ∀ s ∈ names, s.data ≠ [] ∧
      ∀ ch ∈ s.data, ch.isAlphanum = true ∨ ch = '-') :
    split_name (renderName names) = .ok names := by
  obtain ⟨nm0, rest, rfl⟩ : ∃ nm0 rest, names = nm0 :: rest := by
    cases names with
    | nil => exact absurd rfl hne
    | cons a b => exact ⟨a, b, rfl⟩
  have hdata : (renderName (nm0 :: rest)).data =
      joinChars ((nm0 :: rest).map String.data) := rfl
  have hsplit : (splitChars (renderName (nm0 :: rest)).data).map String.mk =
      nm0 :: rest := by
    rw [hdata, splitChars_join ((nm0 :: rest).map String.data) (by simp) ?_]
    · rw [List.map_map]
      rw [show (String.mk ∘ String.data) = id from funext fun s => rfl]
      exact List.map_id _
    · intro x hx hdot
      obtain ⟨s, hs, rfl⟩ := List.mem_map.mp hx
      rcases (hsyn s hs).2 '.' hdot with hh | hh
      · cases hh
      · cases hh
  rw [split_name]
  rw [if_neg ?hguard]
  case hguard =>
    rw [Bool.or_eq_true]
    rintro (h1 | h2)
    · rw [List.isEmpty_iff, hdata] at h1
      exact joinChars_cons_ne_nil nm0.data (rest.map String.data)
        (hsyn nm0 (by simp)).1 h1
    · rw [hdata, List.any_eq_true] at h2
      obtain ⟨ch, hmem, hbad⟩ := h2
      rw [Bool.not_eq_true'] at hbad
      rcases mem_joinChars _ ch hmem with ⟨x, hx, hcx⟩ | rfl
      · obtain ⟨s, hs, rfl⟩ := List.mem_map.mp hx
        rcases (hsyn s hs).2 ch hcx with hh | rfl
        · rw [nameOkChar, hh] at hbad
          cases hbad
        · rw [nameOkChar] at hbad
          simp at hbad
      · rw [nameOkChar] at hbad
        simp at hbad
  rw [if_neg (by rw [hsplit]; simp), hsplit]

/-- A concrete tree with an unnamed intermediate node: the result of
`add_oid_root(default, [1], "a")` followed by
`add_oid_under(_, [1], [2,3], "b")`. -/
def treeAB : OidTree :=
  ⟨1003,
   [⟨1000, 1, none, some "a", true⟩,
    ⟨1001, 2, some 1000, none, false⟩,
    ⟨1002, 3, some 1001, some "b", false⟩]⟩

/-- Counterexample for C4: the address `[1,2,3]` built by `add_oid_under`
with name `"b"` describes to `"a.2.b"` (the unnamed intermediate node is
rendered as the bare digit `2`), and resolving `"a.2.b"` fails — sibling
lookup matches node names, and an unnamed node never matches `"2"` — so the
round trip does not return the original address. -/
theorem round_trip_cex :
    add_oid_root OidTree.default [1] "a" =
      .ok (⟨1001, [⟨1000, 1, none, some "a", true⟩]⟩, [1]) ∧
    add_oid_under (⟨1001, [⟨1000, 1, none, some "a", true⟩]⟩ : OidTree)
      [1] [2, 3] "b" = .ok (treeAB, [1, 2, 3]) ∧
    oid_name treeAB [1, 2, 3] = .ok ["a", "2", "b"] ∧
    renderName ["a", "2", "b"] = "a.2.b" ∧
    oid_by_name treeAB "a.2.b" = .error (.childNotFound "2") :=
  ⟨rfl, rfl, rfl, rfl, rfl⟩

/-- C4 amended: the round trip
`resolve_name (describe_address address) = address` holds for an address
built with name `n` provided the node chain of the address satisfies the
conditions the code's lookups need: the whole chain from a top-level node is
in the tree, the segment from the last root-flagged node down is fully
named with dot-free well-formed names, and the name lookups performed during
resolution (root-scoped, then sibling-scoped) are unambiguous, i.e. the
first match of each lookup is the chain's own node.  With an unnamed node
in the segment, or an ambiguous name, the round trip can fail
(`round_trip_cex`). -/
theorem round_trip_amended (t : OidTree) (front back : List OidTreeEntry)
    (cj clast : OidTreeEntry) (names : List String) (a : List Nat)
    (hwf : WF t)
    (hlink : Linked t.nodes none (front ++ cj :: back))
    (ha : a = (front ++ cj :: back).map (fun c => c.value))
    (hroot : cj.root = true)
    (hnoroot : ∀ c ∈ back, c.root = false)
    (hlast : (cj :: back).getLast? = some clast)
    (hnames : (cj :: back).map (fun c => c.name) = names.map some)
    (hsyn : ∀ s ∈ names, s.data ≠ [] ∧
      ∀ ch ∈ s.data, ch.isAlphanum = true ∨ ch = '-')
    (hrootfind : t.nodes.find?
      (fun n => n.root && n.name == some (names.headD "")) = some cj)
    (hchildfind : ∀ pc ∈ (cj :: back).zip back,
      t.nodes.find? (fun n =>
        !n.root && n.name == pc.2.name && n.parent == some pc.1.id) =
        some pc.2) :
    oid_name t a = .ok names ∧ oid_by_name t (renderName names) = .ok a := by
  obtain ⟨nm0, nrest, rfl⟩ : ∃ nm0 nrest, names = nm0 :: nrest := by
    cases names with
    | nil => rw [List.map_cons] at hnames; cases hnames
    | cons x y => exact ⟨x, y, rfl⟩
  have hn2 : back.map (fun c => c.name) = nrest.map some := by
    rw [List.map_cons, List.map_cons] at hnames
    injection hnames
  have hlastfull : (front ++ cj :: back).getLast? = some clast :=
    getLast?_append_right hlast front
  have hclastmem : clast ∈ t.nodes :=
    linked_mem hlink clast (getLast?_mem hlastfull)
  have hbyid : t.nodes.find? (fun n => n.id == clast.id) = some clast := by
    apply find?_pred_unique hclastmem (by simp)
    intro m hm hqm
    rw [beq_iff_eq] at hqm
    exact mem_id_unique hwf.1 hm hclastmem hqm
  have hfo : find_oid t a = some clast := by
    apply find_oid_intro ?_ hbyid
    rw [ha, chainFind_of_linked hwf _ _ hlink, chainTip_getLast? hlastfull]
  have hlen : ∃ k, a.length = k + 1 := by
    rw [ha]
    cases front with
    | nil => exact ⟨back.length, by simp⟩
    | cons x xs => exact ⟨(xs ++ cj :: back).length, by simp⟩
  have hanchor : findAnchor t a a.length [] = .ok (clast, []) := by
    obtain ⟨k, hk⟩ := hlen
    rw [hk, findAnchor,
      show a.take (k + 1) = a from by rw [← hk]; exact List.take_length a,
      hfo]
  have hseg : Linked t.nodes (chainTip none front) (cj :: back) :=
    ((linked_append front (cj :: back) none).mp hlink).2
  have hclimb := climb_linked t hwf back cj clast (chainTip none front) hseg
    hroot hnoroot hlast (clast.id + 1) (by omega) []
  have hmapnames := map_name_getD (cj :: back) (nm0 :: nrest) hnames
  constructor
  · rw [oid_name, hanchor]
    show climb t (clast.id + 1) clast [] = .ok (nm0 :: nrest)
    rw [hclimb, List.append_nil, hmapnames]
  · have hsplit := split_name_render (nm0 :: nrest) (by simp) hsyn
    have hwalk := walk_down_linked t back cj nrest hn2 hchildfind
    have hwalk2 : walk_down_under t cj nrest = .ok clast := by
      rw [hwalk, hlast]
      rfl
    unfold oid_by_name
    rw [hsplit]
    show (match t.nodes.find?
        (fun n => n.root && n.name == some ((nm0 :: nrest).headD "")) with
      | none => Except.error (Err.rootNotFound ((nm0 :: nrest).headD ""))
      | some rootEnt =>
          walk_down_under t rootEnt (nm0 :: nrest).tail >>= fun term =>
            oid_for_node t (term.id + 1) term) = Except.ok a
    rw [hrootfind]
    show (walk_down_under t cj nrest >>= fun term =>
      oid_for_node t (term.id + 1) term) = Except.ok a
    rw [hwalk2]
    show oid_for_node t (clast.id + 1) clast = Except.ok a
    rw [ha]
    exact oid_for_node_linked t hwf _ clast hlink hlastfull _ (by omega)

/-- The scenario tree: root `"internet"` at `[1,3,6,1]` with child `"mgmt"`
at relative `2`. -/
def treeMgmt : OidTree :=
  ⟨1005,
   [⟨1000, 1, none, none, false⟩,
    ⟨1001, 3, some 1000, none, false⟩,
    ⟨1002, 6, some 1001, none, false⟩,
    ⟨1003, 1, some 1002, some "internet", true⟩,
    ⟨1004, 2, some 1003, some "mgmt", false⟩]⟩

/-- Witness for the amended C4 on the spec's scenario: `[1,3,6,1,2]`
describes to `"internet.mgmt"` and resolves back to `[1,3,6,1,2]`. -/
theorem round_trip_amended_witness :
    oid_name treeMgmt [1, 3, 6, 1, 2] = .ok ["internet", "mgmt"] ∧
    oid_by_name treeMgmt (renderName ["internet", "mgmt"]) =
      .ok [1, 3, 6, 1, 2] :=
  round_trip_amended treeMgmt
    [⟨1000, 1, none, none, false⟩, ⟨1001, 3, some 1000, none, false⟩,
      ⟨1002, 6, some 1001, none, false⟩]
    [⟨1004, 2, some 1003, some "mgmt", false⟩]
    ⟨1003, 1, some 1002, some "internet", true⟩
    ⟨1004, 2, some 1003, some "mgmt", false⟩
    ["internet", "mgmt"] [1, 3, 6, 1, 2]
    (by decide) (by decide) (by decide) (by decide) (by decide) (by decide)
    (by decide) (by decide) (by decide) (by decide)

/-! ## The result extractor (`walk.rs`)

The `BTreeMap<Oid, Value>` result set is modelled as a key/value association
list sorted by the lexicographic `Oid` order; `BTreeMap::range` becomes a
filter by the order bounds and `BTreeMap::get` a `List.lookup`.  The
`HashMap<String, &Value>` accumulators are association lists with
replace-on-insert (`hmInsert`) — lookups see the last write.  Record
deserialization (`T::deserialize` driven through `MapDeserializer`) is a
caller-supplied decoder out of the field map. -/

abbrev Values := List (List Nat × ObjectValue)

abbrev FieldMap := List (String × ObjectValue)

abbrev Table := List (Nat × FieldMap)

/-- The lexicographic `Oid` order (`ObjectIdentifier`'s derived `Ord`): a
strict prefix precedes its extensions. -/
def oidLt : List Nat → List Nat → Bool
  | [], [] => false
  | [], _ :: _ => true
  | _ :: _, [] => false
  | a :: as, b :: bs => a < b || (a == b && oidLt as bs)

def oidLe (x y : List Nat) : Bool := oidLt x y || x == y

/-- `Oid::parent`: all but the last component. -/
def oidParent (o : List Nat) : List Nat := o.dropLast

/-- `Oid::relative_to(base)`: the suffix under `base` when `base` is a
prefix, `None` otherwise. -/
def relative_to (base o : List Nat) : Option (List Nat) :=
  if base.isPrefixOf o then some (o.drop base.length) else none

/-- One past the last sibling: the parent plus (last component + 1), from
`range_for_oid` (`walk.rs` lines 128–137).  The Rust code panics on an empty
`oid`; the claims below always take a nonempty subtree root. -/
def oneAfter : List Nat → List Nat
  | [] => []
  | [x] => [x + 1]
  | x :: rest => x :: oneAfter rest

/-- Membership in the `BTreeMap::range` produced by `range_for_oid root`:
`Included(root)` to `Excluded(oneAfter root)`. -/
def inRange (root o : List Nat) : Bool :=
  oidLe root o && oidLt o (oneAfter root)

/-- Rust `str::strip_prefix`, over the character list. -/
def stripPre (s pre : String) : Option String :=
  if pre.data.isPrefixOf s.data then
    some (String.mk (s.data.drop pre.data.length))
  else none

/-- Resolve a field/column address to its stripped field name: `oid_name` of
the address's parent, then `basename().strip_prefix(..)` (`walk.rs` lines
44–48 and 92–95). -/
def fieldName (t : OidTree) (o : List Nat) (pre : String) :
    Except Err String :=
  match oid_name t (oidParent o) with
  | .error e => .error e
  | .ok comps =>
    match stripPre (basename comps) pre with
    | some s => .ok s
    | none => .error (.notPrefixed (basename comps) pre)

/-- `HashMap::insert` on an association list: the new binding replaces any
existing one for the key. -/
def hmInsert (m : FieldMap) (k : String) (v : ObjectValue) : FieldMap :=
  (k, v) :: m.filter (fun p => p.1 ≠ k)

/-- The scalar-instance filter of `extract_object` (`walk.rs` line 41): the
relative position under `root` has exactly two components and the second is
zero.  (The `expect` in the Rust closure cannot fire for in-range
addresses.) -/
def objShape (root o : List Nat) : Bool :=
  ((relative_to root o).getD []).length == 2 &&
    ((relative_to root o).getD []).getD 1 1 == 0

/-- The field-map-building fold of `extract_object` (`walk.rs` lines 29–52):
the iterator is consumed in ascending address order, errors abort, and later
duplicate names overwrite earlier ones (`collect` into a `HashMap`). -/
def buildMap (t : OidTree) (pre : String) :
    Values → FieldMap → Except Err FieldMap
  | [], acc => .ok acc
  | e :: rest, acc =>
    match fieldName t e.1 pre with
    | .error err => .error err
    | .ok s => buildMap t pre rest (hmInsert acc s e.2)

/-- `WalkedValues::extract_object` (`walk.rs` lines 21–55), parameterized by
the target record's decoder (`T::deserialize` over the name→value map). -/
def extract_object {α} (dec : FieldMap → Except Err α) (t : OidTree)
    (values : Values) (root : List Nat) (pre : String) : Except Err α :=
  match buildMap t pre
      (values.filter (fun e => inRange root e.1 && objShape root e.1)) [] with
  | .error e => .error e
  | .ok m => dec m

/-- The table-entry shape check of `extract_table` (`walk.rs` line 88):
exactly two relative components `[column, row]` with `row != 0`. -/
def tblShape (te o : List Nat) : Bool :=
  ((relative_to te o).getD []).length == 2 &&
    !(((relative_to te o).getD []).getD 1 0 == 0)

/-- The row index of a table entry (`rel.get(1).unwrap()`). -/
def rowOf (te o : List Nat) : Nat := ((relative_to te o).getD []).getD 1 0

/-- `BTreeMap::insert`-like update of the per-row map collection: replace
the first binding for the row or append a fresh one. -/
def tblSet : Table → Nat → FieldMap → Table
  | [], i, m => [(i, m)]
  | (j, mj) :: rest, i, m =>
    if j = i then (i, m) :: rest else (j, mj) :: tblSet rest i m

/-- One iteration of the entry-collection loop of `extract_table`
(`walk.rs` lines 85–102). -/
def scanStep (t : OidTree) (te : List Nat) (pre : String) (tbl : Table)
    (e : List Nat × ObjectValue) : Except Err Table :=
  if !(tblShape te e.1) then .error (.unusualStructure e.1)
  else
    match fieldName t e.1 pre with
    | .error err => .error err
    | .ok s =>
      if (((tbl.lookup (rowOf te e.1)).getD []).lookup s).isSome then
        .error (.duplicateColumn s (rowOf te e.1))
      else
        .ok (tblSet tbl (rowOf te e.1)
          (hmInsert ((tbl.lookup (rowOf te e.1)).getD []) s e.2))

def scanAll (t : OidTree) (te : List Nat) (pre : String) :
    Values → Table → Except Err Table
  | [], tbl => .ok tbl
  | e :: rest, tbl =>
    match scanStep t te pre tbl e with
    | .error err => .error err
    | .ok tbl2 => scanAll t te pre rest tbl2

/-- Ascending-key iteration order of the outer `BTreeMap<u32, _>`. -/
def sortInsert (p : Nat × FieldMap) : Table → Table
  | [] => [p]
  | q :: rest => if p.1 ≤ q.1 then p :: q :: rest else q :: sortInsert p rest

def sortTable : Table → Table
  | [] => []
  | p :: rest => sortInsert p (sortTable rest)

/-- The final per-row decoding loop of `extract_table` (`walk.rs` lines
113–120). -/
def decodeRows {α} (dec : FieldMap → Except Err α) :
    Table → Except Err (List (Nat × α))
  | [] => .ok []
  | (i, m) :: rest =>
    match dec m with
    | .error e => .error e
    | .ok x =>
      match decodeRows dec rest with
      | .error e => .error e
      | .ok xs => .ok ((i, x) :: xs)

/-- `WalkedValues::extract_table` (`walk.rs` lines 57–121), parameterized by
the target row decoder. -/
def extract_table {α} (dec : FieldMap → Except Err α) (t : OidTree)
    (values : Values) (tsz te : List Nat) (pre : String) :
    Except Err (List (Nat × α)) :=
  match values.lookup (tsz ++ [0]) with
  | none => .error (.sizeMissing tsz)
  | some sv =>
    match sv.as_i32 with
    | none => .error (.sizeNotInteger tsz)
    | some i =>
      if i < 0 then .error (.sizeNegative i tsz)
      else
        match scanAll t te pre (values.filter (fun e => inRange te e.1)) [] with
        | .error e => .error e
        | .ok tbl =>
          match (List.range' 1 i.toNat).find?
              (fun r => (tbl.lookup r).isNone) with
          | some r => .error (.missingIndex r)
          | none => decodeRows dec (sortTable tbl)

/-! ## Claim C6: the scalar-instance convention -/

theorem filter_stable {α} (P K : α → Bool) (h : ∀ a, P a = true → K a = true) :
    ∀ l : List α, (l.filter K).filter P = l.filter P := by
  intro l
  induction l with
  | nil => rfl
  | cons x rest ih =>
    by_cases hP : P x = true
    · rw [List.filter_cons_of_pos (h x hP), List.filter_cons_of_pos hP,
        List.filter_cons_of_pos hP, ih]
    · by_cases hK : K x = true
      · rw [List.filter_cons_of_pos hK, List.filter_cons_of_neg hP,
          List.filter_cons_of_neg hP, ih]
      · rw [List.filter_cons_of_neg hK, List.filter_cons_of_neg hP, ih]

/-- C6: `extract_object` ignores every address under its root whose relative
position does not have exactly two components or whose second component is
nonzero — removing all such entries from the result set leaves the call's
outcome (for every decoder) unchanged, so such entries neither contribute a
field nor cause a failure, and the output depends only on entries of
relative shape `[field, 0]`. -/
theorem extract_object_scalar_convention {α} (dec : FieldMap → Except Err α)
    (t : OidTree) (values : Values) (root : List Nat) (pre : String)
    (hroot : root ≠ []) :
    extract_object dec t values root pre =
      extract_object dec t
        (values.filter (fun e => !(inRange root e.1) || objShape root e.1))
        root pre := by
  unfold extract_object
  rw [filter_stable (fun e => inRange root e.1 && objShape root e.1)
    (fun e => !(inRange root e.1) || objShape root e.1) ?_ values]
  intro a ha
  rw [Bool.and_eq_true] at ha
  rw [Bool.or_eq_true]
  exact Or.inr ha.2

/-- Witness for C6 at a concrete result set containing a table-entry-shaped
address (`[1,5,1]`) and a one-component address (`[1,9]`) under the root. -/
theorem extract_object_scalar_convention_witness :
    extract_object Except.ok treeInternet
      [([1, 5, 0], ObjectValue.integer 1), ([1, 5, 1], ObjectValue.integer 2),
        ([1, 9], ObjectValue.integer 3)] [1] "" =
      extract_object Except.ok treeInternet
        ([([1, 5, 0], ObjectValue.integer 1),
          ([1, 5, 1], ObjectValue.integer 2),
          ([1, 9], ObjectValue.integer 3)].filter
          (fun e => !(inRange [1] e.1) || objShape [1] e.1)) [1] "" :=
  extract_object_scalar_convention Except.ok treeInternet
    [([1, 5, 0], ObjectValue.integer 1), ([1, 5, 1], ObjectValue.integer 2),
      ([1, 9], ObjectValue.integer 3)] [1] "" (by decide)

/-! ## Claim C2: duplicate field names in `extract_object` -/

/-- The contribution of one result-set entry to field `k`: its value when
its resolved stripped name is `k`. -/
def contrib (t : OidTree) (pre k : String) (e : List Nat × ObjectValue) :
    Option ObjectValue :=
  match fieldName t e.1 pre with
  | .ok s => if s = k then some e.2 else none
  | .error _ => none

theorem lookupConsEq {α β} [BEq α] {k a : α} (b : β) (l : List (α × β))
    (h : (k == a) = true) : List.lookup k ((a, b) :: l) = some b := by
  show (match k == a with
    | true => some b
    | false => List.lookup k l) = some b
  rw [h]

theorem lookupConsNe {α β} [BEq α] {k a : α} (b : β) (l : List (α × β))
    (h : (k == a) = false) : List.lookup k ((a, b) :: l) = List.lookup k l := by
  show (match k == a with
    | true => some b
    | false => List.lookup k l) = List.lookup k l
  rw [h]

theorem lookup_filter_ne {m : FieldMap} {k s : String} (h : k ≠ s) :
    (m.filter (fun p => p.1 ≠ s)).lookup k = m.lookup k := by
  induction m with
  | nil => rfl
  | cons p rest ih =>
    obtain ⟨p1, p2⟩ := p
    by_cases hp : p1 = s
    · rw [List.filter_cons_of_neg (by simp [hp]), ih,
        lookupConsNe p2 rest (by rw [beq_eq_false_iff_ne, hp]; exact h)]
    · rw [List.filter_cons_of_pos (by simp [hp])]
      by_cases hk : k = p1
      · rw [lookupConsEq p2 (rest.filter (fun p => p.1 ≠ s))
            (by rw [beq_iff_eq]; exact hk),
          lookupConsEq p2 rest (by rw [beq_iff_eq]; exact hk)]
      · rw [lookupConsNe p2 (rest.filter (fun p => p.1 ≠ s))
            (by rw [beq_eq_false_iff_ne]; exact hk),
          lookupConsNe p2 rest (by rw [beq_eq_false_iff_ne]; exact hk), ih]

theorem hmInsert_lookup (m : FieldMap) (k s : String) (v : ObjectValue) :
    (hmInsert m s v).lookup k = if k = s then some v else m.lookup k := by
  rw [hmInsert]
  by_cases h : k = s
  · rw [if_pos h, lookupConsEq v _ (by rw [beq_iff_eq]; exact h)]
  · rw [if_neg h, lookupConsNe v _ (by rw [beq_eq_false_iff_ne]; exact h),
      lookup_filter_ne h]

theorem getLast?_cons_or {α} (a : α) (l : List α) :
    (a :: l).getLast? = l.getLast?.or (some a) := by
  cases l with
  | nil => rfl
  | cons b bs =>
    rw [List.getLast?_cons_cons]
    cases h : (b :: bs).getLast? with
    | none => rw [List.getLast?_eq_none_iff] at h; cases h
    | some x => rfl

theorem or_some_or {α} (X : Option α) (a : α) (z : Option α) :
    (X.or (some a)).or z = X.or (some a) := by
  cases X <;> rfl

theorem buildMap_lookup (t : OidTree) (pre : String) :
    ∀ (l : Values) (acc m : FieldMap),
      buildMap t pre l acc = .ok m →
      ∀ k, m.lookup k =
        ((l.filterMap (contrib t pre k)).getLast?).or (acc.lookup k) := by
  intro l
  induction l with
  | nil =>
    intro acc m h k
    rw [buildMap] at h
    injection h with h'
    subst h'
    rfl
  | cons e rest ih =>
    intro acc m h k
    rw [buildMap] at h
    cases hf : fieldName t e.1 pre with
    | error err => rw [hf] at h; cases h
    | ok s =>
      rw [hf] at h
      have hrec := ih (hmInsert acc s e.2) m h k
      rw [List.filterMap_cons]
      rw [show contrib t pre k e = if s = k then some e.2 else none from by
        unfold contrib
        rw [hf]]
      by_cases hsk : s = k
      · rw [if_pos hsk]
        show m.lookup k =
          ((e.2 :: rest.filterMap (contrib t pre k)).getLast?).or
            (acc.lookup k)
        rw [getLast?_cons_or, or_some_or, hrec,
          hmInsert_lookup acc k s e.2, if_pos hsk.symm]
      · rw [if_neg hsk]
        show m.lookup k =
          ((rest.filterMap (contrib t pre k)).getLast?).or (acc.lookup k)
        rw [hrec, hmInsert_lookup acc k s e.2,
          if_neg (fun hk => hsk hk.symm)]

theorem buildMap_fails (t : OidTree) (pre : String) :
    ∀ (l : Values) (acc : FieldMap),
      (∃ e ∈ l, ∀ s, fieldName t e.1 pre ≠ .ok s) →
      ∃ err, buildMap t pre l acc = .error err := by
  intro l
  induction l with
  | nil =>
    rintro acc ⟨e, hmem, -⟩
    cases hmem
  | cons x rest ih =>
    rintro acc ⟨e, hmem, hbad⟩
    rw [buildMap]
    cases hf : fieldName t x.1 pre with
    | error err => exact ⟨err, rfl⟩
    | ok s =>
      rcases List.mem_cons.mp hmem with rfl | hmem2
      · exact absurd hf (hbad s)
      · exact ih (hmInsert acc s x.2) ⟨e, hmem2, hbad⟩

/-- Counterexample for C2: in the tree built by `add_oid_root([1],"a")` and
two `add_oid_under` calls that give both `[1,2]` and `[1,3]` the name
`"x"`, the scalar instances `[1,2,0] ↦ 7` and `[1,3,0] ↦ 8` are two
distinct addresses resolving to the same field name, yet `extract_object`
succeeds and its field map retains only the later value `8` — value `7` is
silently discarded. -/
theorem extract_object_drops_cex :
    add_oid_root OidTree.default [1] "a" =
      .ok (⟨1001, [⟨1000, 1, none, some "a", true⟩]⟩, [1]) ∧
    add_oid_under (⟨1001, [⟨1000, 1, none, some "a", true⟩]⟩ : OidTree)
      [1] [2] "x" =
      .ok (⟨1002, [⟨1000, 1, none, some "a", true⟩,
        ⟨1001, 2, some 1000, some "x", false⟩]⟩, [1, 2]) ∧
    add_oid_under (⟨1002, [⟨1000, 1, none, some "a", true⟩,
        ⟨1001, 2, some 1000, some "x", false⟩]⟩ : OidTree)
      [1] [3] "x" =
      .ok (⟨1003, [⟨1000, 1, none, some "a", true⟩,
        ⟨1001, 2, some 1000, some "x", false⟩,
        ⟨1002, 3, some 1000, some "x", false⟩]⟩, [1, 3]) ∧
    ([1, 2, 0] : List Nat) ≠ [1, 3, 0] ∧
    (inRange [1] [1, 2, 0] && objShape [1] [1, 2, 0]) = true ∧
    (inRange [1] [1, 3, 0] && objShape [1] [1, 3, 0]) = true ∧
    fieldName (⟨1003, [⟨1000, 1, none, some "a", true⟩,
        ⟨1001, 2, some 1000, some "x", false⟩,
        ⟨1002, 3, some 1000, some "x", false⟩]⟩ : OidTree) [1, 2, 0] "" =
      .ok "x" ∧
    fieldName (⟨1003, [⟨1000, 1, none, some "a", true⟩,
        ⟨1001, 2, some 1000, some "x", false⟩,
        ⟨1002, 3, some 1000, some "x", false⟩]⟩ : OidTree) [1, 3, 0] "" =
      .ok "x" ∧
    extract_object Except.ok
      (⟨1003, [⟨1000, 1, none, some "a", true⟩,
        ⟨1001, 2, some 1000, some "x", false⟩,
        ⟨1002, 3, some 1000, some "x", false⟩]⟩ : OidTree)
      [([1, 2, 0], ObjectValue.integer 7), ([1, 3, 0], ObjectValue.integer 8)]
      [1] "" = .ok [("x", ObjectValue.integer 8)] :=
  ⟨rfl, rfl, rfl, by decide, by decide, by decide, rfl, rfl, rfl⟩

/-- C2 amended: a failing field resolution still aborts the whole
`extract_object` call with an error; however, when several distinct
scalar-instance addresses under the root resolve to the same field name the
call does not fail — the field map binds each name to the value of the
*last* conforming entry (in scan order) resolving to it, silently dropping
the earlier values. -/
theorem extract_object_last_wins {α} (dec : FieldMap → Except Err α)
    (t : OidTree) (values : Values) (root : List Nat) (pre : String) :
    ((∃ e ∈ values.filter (fun e => inRange root e.1 && objShape root e.1),
        ∀ s, fieldName t e.1 pre ≠ .ok s) →
      ∃ err, extract_object dec t values root pre = .error err) ∧
    (∀ m : FieldMap, extract_object Except.ok t values root pre = .ok m →
      ∀ k, m.lookup k =
        ((values.filter
            (fun e => inRange root e.1 && objShape root e.1)).filterMap
          (contrib t pre k)).getLast?) := by
  constructor
  · intro hex
    obtain ⟨err, herr⟩ := buildMap_fails t pre
      (values.filter (fun e => inRange root e.1 && objShape root e.1)) []
      hex
    refine ⟨err, ?_⟩
    unfold extract_object
    rw [herr]
  · intro m hm k
    have hb : buildMap t pre
        (values.filter (fun e => inRange root e.1 && objShape root e.1)) [] =
        .ok m := by
      unfold extract_object at hm
      cases hbm : buildMap t pre
          (values.filter (fun e => inRange root e.1 && objShape root e.1))
          [] with
      | error err => rw [hbm] at hm; cases hm
      | ok m2 =>
        rw [hbm] at hm
        injection hm with hm'
        rw [hm']
    have := buildMap_lookup t pre _ [] m hb k
    rw [this]
    have hornone : ∀ X : Option ObjectValue, X.or none = X := fun X => by
      cases X <;> rfl
    rw [show List.lookup k ([] : FieldMap) = none from rfl, hornone]

/-- Witness for the amended C2: on the duplicate-name tree the field map
binds `"x"` to the value of the later address `[1,3,0]`. -/
theorem extract_object_last_wins_witness :
    ([("x", ObjectValue.integer 8)] : FieldMap).lookup "x" =
      (([([1, 2, 0], ObjectValue.integer 7),
          ([1, 3, 0], ObjectValue.integer 8)].filter
          (fun e => inRange [1] e.1 && objShape [1] e.1)).filterMap
        (contrib (⟨1003, [⟨1000, 1, none, some "a", true⟩,
          ⟨1001, 2, some 1000, some "x", false⟩,
          ⟨1002, 3, some 1000, some "x", false⟩]⟩ : OidTree) "" "x")).getLast? :=
  (extract_object_last_wins Except.ok
    (⟨1003, [⟨1000, 1, none, some "a", true⟩,
      ⟨1001, 2, some 1000, some "x", false⟩,
      ⟨1002, 3, some 1000, some "x", false⟩]⟩ : OidTree)
    [([1, 2, 0], ObjectValue.integer 7), ([1, 3, 0], ObjectValue.integer 8)]
    [1] "").2 [("x", ObjectValue.integer 8)] rfl "x"

/-! ## Claim C9: malformed table entries are never skipped -/

theorem scanAll_fails (t : OidTree) (te : List Nat) (pre : String) :
    ∀ (l : Values) (tbl : Table),
      (∃ e ∈ l, tblShape te e.1 = false) →
      ∃ err, scanAll t te pre l tbl = .error err := by
  intro l
  induction l with
  | nil =>
    rintro tbl ⟨e, hmem, -⟩
    cases hmem
  | cons x rest ih =>
    rintro tbl ⟨e, hmem, hbad⟩
    rw [scanAll]
    cases hs : scanStep t te pre tbl x with
    | error err => exact ⟨err, rfl⟩
    | ok tbl2 =>
      rcases List.mem_cons.mp hmem with rfl | hmem2
      · exfalso
        rw [scanStep, hbad] at hs
        simp at hs
      · exact ih tbl2 ⟨e, hmem2, hbad⟩

/-- Counterexample for C9: the result set holds a malformed entry (`[1,2]`
has a one-component relative position under `[1]`), but because the
table-size value is absent the call fails with the size error, not a
table-structure error. -/
theorem extract_table_no_skip_cex :
    (inRange [1] [1, 2] = true) ∧
    (tblShape [1] [1, 2] = false) ∧
    extract_table Except.ok OidTree.default
      [([1, 2], ObjectValue.integer 1)] [5] [1] "" =
      .error (.sizeMissing [5]) :=
  ⟨by decide, by decide, rfl⟩

/-- C9 amended: a malformed entry under the table-entry root (relative
position without exactly two components, or with second component zero) is
never skipped — `extract_table` always fails; the error is the
table-structure error naming that entry whenever the size reads as a
nonnegative integer and the malformed entry is the first one scanned
(otherwise whichever failure comes earlier, such as a missing size, is
reported instead). -/
theorem extract_table_no_skip {α} (dec : FieldMap → Except Err α)
    (t : OidTree) (values : Values) (tsz te : List Nat) (pre : String)
    (e : List Nat × ObjectValue) (hmem : e ∈ values)
    (hin : inRange te e.1 = true) (hbad : tblShape te e.1 = false) :
    (∃ err, extract_table dec t values tsz te pre = .error err) ∧
    (∀ i : Int, values.lookup (tsz ++ [0]) = some (.integer i) → 0 ≤ i →
      (values.filter (fun x => inRange te x.1)).head? = some e →
      extract_table dec t values tsz te pre =
        .error (.unusualStructure e.1)) := by
  have hmemf : e ∈ values.filter (fun x => inRange te x.1) :=
    List.mem_filter.mpr ⟨hmem, hin⟩
  constructor
  · unfold extract_table
    cases h1 : values.lookup (tsz ++ [0]) with
    | none => exact ⟨_, rfl⟩
    | some sv =>
      show ∃ err, (match sv.as_i32 with
        | none => Except.error (Err.sizeNotInteger tsz)
        | some i =>
          if i < 0 then Except.error (Err.sizeNegative i tsz)
          else
            match scanAll t te pre
                (values.filter (fun x => inRange te x.1)) [] with
            | .error e2 => .error e2
            | .ok tbl =>
              match (List.range' 1 i.toNat).find?
                  (fun r => (tbl.lookup r).isNone) with
              | some r => .error (.missingIndex r)
              | none => decodeRows dec (sortTable tbl)) = .error err
      cases h2 : sv.as_i32 with
      | none => exact ⟨_, rfl⟩
      | some i =>
        show ∃ err, (if i < 0 then Except.error (Err.sizeNegative i tsz)
          else
            match scanAll t te pre
                (values.filter (fun x => inRange te x.1)) [] with
            | .error e2 => .error e2
            | .ok tbl =>
              match (List.range' 1 i.toNat).find?
                  (fun r => (tbl.lookup r).isNone) with
              | some r => .error (.missingIndex r)
              | none => decodeRows dec (sortTable tbl)) = .error err
        by_cases h3 : i < 0
        · rw [if_pos h3]
          exact ⟨_, rfl⟩
        · rw [if_neg h3]
          obtain ⟨err, herr⟩ := scanAll_fails t te pre
            (values.filter (fun x => inRange te x.1)) [] ⟨e, hmemf, hbad⟩
          rw [herr]
          exact ⟨err, rfl⟩
  · intro i hsz hpos hhead
    obtain ⟨rest, hrest⟩ : ∃ rest,
        values.filter (fun x => inRange te x.1) = e :: rest := by
      cases hl : values.filter (fun x => inRange te x.1) with
      | nil => rw [hl] at hhead; cases hhead
      | cons y ys =>
        rw [hl] at hhead
        injection hhead with h'
        exact ⟨ys, by rw [h']⟩
    unfold extract_table
    rw [hsz]
    show (if i < 0 then Except.error (Err.sizeNegative i tsz)
      else
        match scanAll t te pre
            (values.filter (fun x => inRange te x.1)) [] with
        | .error e2 => .error e2
        | .ok tbl =>
          match (List.range' 1 i.toNat).find?
              (fun r => (tbl.lookup r).isNone) with
          | some r => .error (.missingIndex r)
          | none => decodeRows dec (sortTable tbl)) =
      Except.error (Err.unusualStructure e.1)
    rw [if_neg (not_lt.mpr hpos), hrest]
    have hstep : scanStep t te pre [] e = .error (.unusualStructure e.1) := by
      rw [scanStep, hbad]
      rfl
    rw [scanAll, hstep]

/-- Witness for the amended C9 at concrete inputs: without a table size the
call fails (with some error); with the size present and the malformed entry
first, it fails with the table-structure error naming the entry. -/
theorem extract_table_no_skip_witness :
    (∃ err, extract_table Except.ok OidTree.default
      [([1, 2], ObjectValue.integer 1)] [5] [1] "" = .error err) ∧
    extract_table Except.ok OidTree.default
      [([1, 2], ObjectValue.integer 1), ([5, 0], ObjectValue.integer 0)]
      [5] [1] "" = .error (.unusualStructure [1, 2]) :=
  ⟨(extract_table_no_skip Except.ok OidTree.default
      [([1, 2], ObjectValue.integer 1)] [5] [1] ""
      ([1, 2], ObjectValue.integer 1) (by simp) (by decide) (by decide)).1,
   (extract_table_no_skip Except.ok OidTree.default
      [([1, 2], ObjectValue.integer 1), ([5, 0], ObjectValue.integer 0)]
      [5] [1] ""
      ([1, 2], ObjectValue.integer 1) (by simp) (by decide) (by decide)).2
      0 rfl (by decide) rfl⟩

/-! ## Claim C1: the dense-table law -/

instance {ε α} [DecidableEq ε] [DecidableEq α] : DecidableEq (Except ε α) :=
  fun a b =>
    match a, b with
    | .ok x, .ok y =>
      if h : x = y then isTrue (by rw [h])
      else isFalse (fun hc => h (Except.ok.inj hc))
    | .error x, .error y =>
      if h : x = y then isTrue (by rw [h])
      else isFalse (fun hc => h (Except.error.inj hc))
    | .ok _, .error _ => isFalse (fun hc => Except.noConfusion hc)
    | .error _, .ok _ => isFalse (fun hc => Except.noConfusion hc)

/-- The resolved column name of an entry (the value carried by a successful
`fieldName`, or `""` on failure — the scan aborts in that case anyway). -/
def nameOf (t : OidTree) (pre : String) (e : List Nat × ObjectValue) : String :=
  match fieldName t e.1 pre with
  | .ok s => s
  | .error _ => ""

/-- Column names already collected for row `i`. -/
def rowNames (tbl : Table) (i : Nat) : List String :=
  ((tbl.lookup i).getD []).map Prod.fst

theorem lookup_isSome_iff {α β} [BEq α] [LawfulBEq α]
    (m : List (α × β)) (k : α) :
    (List.lookup k m).isSome = true ↔ k ∈ m.map Prod.fst := by
  induction m with
  | nil => simp [List.lookup]
  | cons p rest ih =>
    obtain ⟨a, b⟩ := p
    rw [List.map_cons]
    by_cases h : (k == a) = true
    · rw [lookupConsEq b rest h]
      simp [eq_of_beq h]
    · rw [lookupConsNe b rest (Bool.eq_false_iff.mpr h), ih]
      have hne : k ≠ a := fun hk => h (by rw [hk, beq_self_eq_true])
      simp [hne]

theorem tblSet_lookup (tbl : Table) (i : Nat) (m : FieldMap) (j : Nat) :
    (tblSet tbl i m).lookup j = if j = i then some m else tbl.lookup j := by
  induction tbl with
  | nil =>
    by_cases h : j = i
    · rw [if_pos h, tblSet, lookupConsEq m [] (by rw [beq_iff_eq]; exact h)]
    · rw [if_neg h, tblSet,
        lookupConsNe m [] (by rw [beq_eq_false_iff_ne]; exact h)]
  | cons q rest ih =>
    obtain ⟨a, mb⟩ := q
    rw [tblSet]
    by_cases ha : a = i
    · rw [if_pos ha]
      by_cases hj : j = i
      · rw [if_pos hj, lookupConsEq m rest (by rw [beq_iff_eq]; exact hj)]
      · rw [if_neg hj,
          lookupConsNe m rest (by rw [beq_eq_false_iff_ne]; exact hj),
          lookupConsNe mb rest
            (by rw [beq_eq_false_iff_ne, ha]; exact hj)]
    · rw [if_neg ha]
      by_cases hj : j = a
      · have hji : ¬ j = i := fun hji => ha (by rw [← hj, hji])
        rw [lookupConsEq mb (tblSet rest i m) (by rw [beq_iff_eq]; exact hj),
          if_neg hji,
          lookupConsEq mb rest (by rw [beq_iff_eq]; exact hj)]
      · rw [lookupConsNe mb (tblSet rest i m)
            (by rw [beq_eq_false_iff_ne]; exact hj), ih]
        by_cases hji : j = i
        · rw [if_pos hji, if_pos hji]
        · rw [if_neg hji, if_neg hji,
            lookupConsNe mb rest (by rw [beq_eq_false_iff_ne]; exact hj)]

theorem mem_keys_hmInsert (m : FieldMap) (s : String) (v : ObjectValue)
    (x : String) :
    x ∈ (hmInsert m s v).map Prod.fst ↔
      x = s ∨ (x ≠ s ∧ x ∈ m.map Prod.fst) := by
  rw [hmInsert, List.map_cons, List.mem_cons]
  constructor
  · rintro (rfl | hx)
    · exact Or.inl rfl
    · obtain ⟨p, hp, rfl⟩ := List.mem_map.mp hx
      have hpf := List.mem_filter.mp hp
      refine Or.inr ⟨by simpa using hpf.2, List.mem_map.mpr ⟨p, hpf.1, rfl⟩⟩
  · rintro (rfl | ⟨hne, hx⟩)
    · exact Or.inl rfl
    · obtain ⟨p, hp, rfl⟩ := List.mem_map.mp hx
      exact Or.inr (List.mem_map.mpr
        ⟨p, List.mem_filter.mpr ⟨hp, by simpa using hne⟩, rfl⟩)

theorem mem_rowNames_tblSet (tbl : Table) (i : Nat) (m : FieldMap) (r : Nat)
    (x : String) :
    x ∈ rowNames (tblSet tbl i m) r ↔
      if r = i then x ∈ m.map Prod.fst else x ∈ rowNames tbl r := by
  rw [rowNames, tblSet_lookup]
  by_cases h : r = i
  · rw [if_pos h, if_pos h]
    exact Iff.rfl
  · rw [if_neg h, if_neg h]
    exact Iff.rfl

theorem decodeRows_ok {α} (dec : FieldMap → Except Err α)
    (hdec : ∀ m, ∃ x, dec m = .ok x) :
    ∀ tbl : Table, ∃ res, decodeRows dec tbl = .ok res := by
  intro tbl
  induction tbl with
  | nil => exact ⟨[], rfl⟩
  | cons p rest ih =>
    obtain ⟨i, m⟩ := p
    obtain ⟨x, hx⟩ := hdec m
    obtain ⟨xs, hxs⟩ := ih
    refine ⟨(i, x) :: xs, ?_⟩
    rw [decodeRows, hx]
    show (match decodeRows dec rest with
      | Except.error e => (Except.error e : Except Err (List (Nat × α)))
      | Except.ok xs2 => Except.ok ((i, x) :: xs2)) = Except.ok ((i, x) :: xs)
    rw [hxs]

theorem scanAll_spec (t : OidTree) (te : List Nat) (pre : String) :
    ∀ (l : Values) (tbl : Table),
      (∀ e ∈ l, tblShape te e.1 = true ∧
        fieldName t e.1 pre = .ok (nameOf t pre e)) →
      (((∃ tbl2, scanAll t te pre l tbl = .ok tbl2) ↔
        ((l.map (fun e => (rowOf te e.1, nameOf t pre e))).Nodup ∧
          ∀ e ∈ l, nameOf t pre e ∉ rowNames tbl (rowOf te e.1))) ∧
       (∀ err, scanAll t te pre l tbl = .error err →
          ∃ s i, err = Err.duplicateColumn s i) ∧
       (∀ tbl2, scanAll t te pre l tbl = .ok tbl2 →
          ∀ i, (tbl2.lookup i).isSome =
            ((tbl.lookup i).isSome ||
              l.any (fun e => rowOf te e.1 == i)))) := by
  intro l
  induction l with
  | nil =>
    intro tbl _
    refine ⟨?_, ?_, ?_⟩
    · constructor
      · intro _
        exact ⟨List.nodup_nil, fun e he => absurd he (List.not_mem_nil e)⟩
      · intro _
        exact ⟨tbl, rfl⟩
    · intro err h
      rw [scanAll] at h
      cases h
    · intro tbl2 h i
      rw [scanAll] at h
      injection h with h'
      subst h'
      rw [List.any_nil, Bool.or_false]
  | cons e rest ih =>
    intro tbl hgood
    obtain ⟨hshape, hfn⟩ := hgood e (List.mem_cons_self e rest)
    have hstep : scanStep t te pre tbl e =
        if (((tbl.lookup (rowOf te e.1)).getD []).lookup
            (nameOf t pre e)).isSome then
          Except.error (Err.duplicateColumn (nameOf t pre e) (rowOf te e.1))
        else Except.ok (tblSet tbl (rowOf te e.1)
          (hmInsert ((tbl.lookup (rowOf te e.1)).getD [])
            (nameOf t pre e) e.2)) := by
      rw [scanStep, hshape, hfn]
      rfl
    by_cases hdup : (((tbl.lookup (rowOf te e.1)).getD []).lookup
        (nameOf t pre e)).isSome = true
    · have hscan : scanAll t te pre (e :: rest) tbl =
          Except.error (Err.duplicateColumn (nameOf t pre e)
            (rowOf te e.1)) := by
        rw [scanAll, hstep, if_pos hdup]
      refine ⟨?_, ?_, ?_⟩
      · constructor
        · rintro ⟨tbl2, h2⟩
          rw [hscan] at h2
          cases h2
        · rintro ⟨-, hforall⟩
          have hmem := (lookup_isSome_iff _ _).mp hdup
          exact absurd hmem (hforall e (List.mem_cons_self e rest))
      · intro err h
        rw [hscan] at h
        injection h with h'
        exact ⟨nameOf t pre e, rowOf te e.1, h'.symm⟩
      · intro tbl2 h
        rw [hscan] at h
        cases h
    · have hdupf : (((tbl.lookup (rowOf te e.1)).getD []).lookup
          (nameOf t pre e)).isSome = false := Bool.eq_false_iff.mpr hdup
      have hscan : scanAll t te pre (e :: rest) tbl =
          scanAll t te pre rest
            (tblSet tbl (rowOf te e.1)
              (hmInsert ((tbl.lookup (rowOf te e.1)).getD [])
                (nameOf t pre e) e.2)) := by
        rw [scanAll, hstep, if_neg hdup]
      obtain ⟨ih1, ih2, ih3⟩ := ih
        (tblSet tbl (rowOf te e.1)
          (hmInsert ((tbl.lookup (rowOf te e.1)).getD [])
            (nameOf t pre e) e.2))
        (fun x hx => hgood x (List.mem_cons_of_mem e hx))
      have hpoint : ∀ (x : String) (r : Nat),
          (x ∉ rowNames (tblSet tbl (rowOf te e.1)
            (hmInsert ((tbl.lookup (rowOf te e.1)).getD [])
              (nameOf t pre e) e.2)) r) ↔
          (x ∉ rowNames tbl r ∧
            (r = rowOf te e.1 → x ≠ nameOf t pre e)) := by
        intro x r
        rw [mem_rowNames_tblSet]
        by_cases h : r = rowOf te e.1
        · subst h
          rw [if_pos rfl, mem_keys_hmInsert]
          constructor
          · intro hni
            constructor
            · intro hxmem
              by_cases hxn : x = nameOf t pre e
              · exact hni (Or.inl hxn)
              · exact hni (Or.inr ⟨hxn, hxmem⟩)
            · intro _ hxn
              exact hni (Or.inl hxn)
          · rintro ⟨hxmem, hxn⟩
            rintro (h1 | ⟨h2, h3⟩)
            · exact hxn rfl h1
            · exact hxmem h3
        · rw [if_neg h]
          constructor
          · intro hni
            exact ⟨hni, fun hr => absurd hr h⟩
          · rintro ⟨hni, -⟩
            exact hni
      refine ⟨?_, ?_, ?_⟩
      · rw [hscan, ih1]
        constructor
        · rintro ⟨hA, hBC⟩
          constructor
          · rw [List.map_cons, List.nodup_cons]
            refine ⟨?_, hA⟩
            intro hmem
            obtain ⟨e2, he2, heq⟩ := List.mem_map.mp hmem
            have h1 : rowOf te e2.1 = rowOf te e.1 := congrArg Prod.fst heq
            have h2 : nameOf t pre e2 = nameOf t pre e :=
              congrArg Prod.snd heq
            exact ((hpoint _ _).mp (hBC e2 he2)).2 h1 h2
          · intro e2 he2
            rcases List.mem_cons.mp he2 with rfl | he3
            · intro hmem
              have := (lookup_isSome_iff
                (((tbl.lookup (rowOf te e2.1)).getD [])) _).mpr hmem
              rw [hdupf] at this
              cases this
            · exact ((hpoint _ _).mp (hBC e2 he3)).1
        · rintro ⟨hnd, hnot⟩
          rw [List.map_cons, List.nodup_cons] at hnd
          obtain ⟨hhead, hA⟩ := hnd
          refine ⟨hA, ?_⟩
          intro e2 he2
          apply (hpoint _ _).mpr
          refine ⟨hnot e2 (List.mem_cons_of_mem e he2), ?_⟩
          intro hr hcontra
          apply hhead
          apply List.mem_map.mpr
          refine ⟨e2, he2, ?_⟩
          rw [hr, hcontra]
      · intro err h
        rw [hscan] at h
        exact ih2 err h
      · intro tbl2 h i
        rw [hscan] at h
        have hlook := ih3 tbl2 h i
        rw [hlook, tblSet_lookup, List.any_cons]
        by_cases hi : i = rowOf te e.1
        · rw [if_pos hi]
          have hb : (rowOf te e.1 == i) = true := by
            rw [beq_iff_eq]
            exact hi.symm
          rw [hb]
          simp
        · rw [if_neg hi]
          have hb : (rowOf te e.1 == i) = false := by
            rw [beq_eq_false_iff_ne]
            exact fun hh => hi hh.symm
          rw [hb, Bool.false_or]

theorem isNone_not_isSome {β} (o : Option β) : o.isNone = !o.isSome := by
  cases o with
  | none => rfl
  | some x => rfl

/-- C1 counterexample: with the result set `{[1,0] ↦ 0, [2,5] ↦ 1}`, size
address `[1]` and entry address `[2]`, the size field reads as the integer
`0`, the range of rows `1..=0` is empty (every row in it is trivially
present exactly once) and no column name repeats, yet `extract_table` does
not succeed: the entry `[2,5]` has a malformed (one-component) relative
position and the call fails with the table-structure error naming it, a
failure mode the claimed equivalence does not account for. -/
theorem extract_table_dense_law_cex :
    (([([1, 0], ObjectValue.integer 0),
       ([2, 5], ObjectValue.integer 1)] : Values).lookup ([1] ++ [0]) =
        some (ObjectValue.integer (Int.ofNat 0))) ∧
    List.range' 1 0 = ([] : List Nat) ∧
    ((([([1, 0], ObjectValue.integer 0),
        ([2, 5], ObjectValue.integer 1)] : Values).filter
          (fun x => inRange [2] x.1)).map
        (fun e => (rowOf [2] e.1, nameOf OidTree.default "" e))).Nodup ∧
    extract_table Except.ok OidTree.default
      [([1, 0], ObjectValue.integer 0), ([2, 5], ObjectValue.integer 1)]
      [1] [2] "" = .error (.unusualStructure [2, 5]) :=
  ⟨rfl, rfl, by decide, rfl⟩

/-- C1 amended: assume the size field reads as the nonnegative integer `N`,
every in-range entry is well-shaped with a resolvable field name, and the
row decoder always succeeds.  Then (1) `extract_table` succeeds iff no
(row, column-name) pair repeats and every row `1..=N` is present; (2) when
no pair repeats but some row in `1..=N` is missing, it fails with the
table-structure error naming the first missing index; (3) when a
(row, column-name) pair repeats, it fails with a duplicate-column error.
Without the well-shapedness assumption the equivalence is false
(`extract_table_dense_law_cex`). -/
theorem extract_table_dense_law {α} (dec : FieldMap → Except Err α)
    (t : OidTree) (values : Values) (tsz te : List Nat) (pre : String)
    (N : Nat)
    (hdec : ∀ m, ∃ x, dec m = .ok x)
    (hsz : values.lookup (tsz ++ [0]) = some (.integer (Int.ofNat N)))
    (hgood : ∀ e ∈ values.filter (fun x => inRange te x.1),
      tblShape te e.1 = true ∧ fieldName t e.1 pre = .ok (nameOf t pre e)) :
    ((∃ res, extract_table dec t values tsz te pre = .ok res) ↔
      (((values.filter (fun x => inRange te x.1)).map
          (fun e => (rowOf te e.1, nameOf t pre e))).Nodup ∧
        ∀ r ∈ List.range' 1 N,
          (values.filter (fun x => inRange te x.1)).any
            (fun e => rowOf te e.1 == r) = true)) ∧
    (((values.filter (fun x => inRange te x.1)).map
        (fun e => (rowOf te e.1, nameOf t pre e))).Nodup →
      ∀ r, (List.range' 1 N).find?
          (fun r2 => !((values.filter (fun x => inRange te x.1)).any
            (fun e => rowOf te e.1 == r2))) = some r →
        extract_table dec t values tsz te pre =
          .error (.missingIndex r)) ∧
    (¬ (((values.filter (fun x => inRange te x.1)).map
        (fun e => (rowOf te e.1, nameOf t pre e))).Nodup) →
      ∃ s i, extract_table dec t values tsz te pre =
        .error (.duplicateColumn s i)) := by
  obtain ⟨hs1, hs2, hs3⟩ :=
    scanAll_spec t te pre (values.filter (fun x => inRange te x.1)) [] hgood
  have hok_iff : (∃ tbl2,
      scanAll t te pre (values.filter (fun x => inRange te x.1)) [] =
        .ok tbl2) ↔
      ((values.filter (fun x => inRange te x.1)).map
        (fun e => (rowOf te e.1, nameOf t pre e))).Nodup := by
    rw [hs1]
    constructor
    · exact And.left
    · intro h
      exact ⟨h, fun e he => List.not_mem_nil _⟩
  have htn : (Int.ofNat N).toNat = N := rfl
  have hred : extract_table dec t values tsz te pre =
      (match scanAll t te pre (values.filter (fun x => inRange te x.1)) []
          with
       | Except.error e => Except.error e
       | Except.ok tbl =>
         match (List.range' 1 N).find? (fun r => (tbl.lookup r).isNone) with
         | some r => Except.error (Err.missingIndex r)
         | none => decodeRows dec (sortTable tbl)) := by
    unfold extract_table
    rw [hsz]
    show (if (Int.ofNat N) < 0 then
        (Except.error (Err.sizeNegative (Int.ofNat N) tsz)
          : Except Err (List (Nat × α)))
      else
        match scanAll t te pre (values.filter (fun x => inRange te x.1)) []
            with
        | Except.error e => Except.error e
        | Except.ok tbl =>
          match (List.range' 1 (Int.ofNat N).toNat).find?
              (fun r => (tbl.lookup r).isNone) with
          | some r => Except.error (Err.missingIndex r)
          | none => decodeRows dec (sortTable tbl)) =
      (match scanAll t te pre (values.filter (fun x => inRange te x.1)) []
          with
       | Except.error e => Except.error e
       | Except.ok tbl =>
         match (List.range' 1 N).find? (fun r => (tbl.lookup r).isNone) with
         | some r => Except.error (Err.missingIndex r)
         | none => decodeRows dec (sortTable tbl))
    have hneg : ¬ ((Int.ofNat N : Int) < 0) :=
      fun hc => absurd (Int.ofNat_nonneg N) (not_le.mpr hc)
    rw [if_neg hneg, htn]
  refine ⟨?_, ?_, ?_⟩
  · rw [hred]
    constructor
    · rintro ⟨res, hres⟩
      cases hscan : scanAll t te pre
          (values.filter (fun x => inRange te x.1)) [] with
      | error err =>
        rw [hscan] at hres
        replace hres : (Except.error err : Except Err (List (Nat × α))) =
            Except.ok res := hres
        cases hres
      | ok tbl2 =>
        rw [hscan] at hres
        replace hres : (match (List.range' 1 N).find?
            (fun r => (tbl2.lookup r).isNone) with
          | some r => Except.error (Err.missingIndex r)
          | none => decodeRows dec (sortTable tbl2)) = Except.ok res := hres
        refine ⟨hok_iff.mp ⟨tbl2, hscan⟩, ?_⟩
        intro r hr
        cases hfind : (List.range' 1 N).find?
            (fun r2 => (tbl2.lookup r2).isNone) with
        | some r2 =>
          rw [hfind] at hres
          replace hres : (Except.error (Err.missingIndex r2)
              : Except Err (List (Nat × α))) = Except.ok res := hres
          cases hres
        | none =>
          have hsome : (tbl2.lookup r).isSome = true := by
            have hall := List.find?_eq_none.mp hfind r hr
            replace hall : ¬ ((tbl2.lookup r).isNone = true) := hall
            cases hcase : tbl2.lookup r with
            | none =>
              exfalso
              apply hall
              rw [hcase]
              rfl
            | some m => rfl
          have heq := hs3 tbl2 hscan r
          rw [hsome] at heq
          exact heq.symm
    · rintro ⟨hnd, hall⟩
      obtain ⟨tbl2, hscan⟩ := hok_iff.mpr hnd
      rw [hscan]
      show ∃ res, (match (List.range' 1 N).find?
          (fun r => (tbl2.lookup r).isNone) with
        | some r => Except.error (Err.missingIndex r)
        | none => decodeRows dec (sortTable tbl2)) = Except.ok res
      have hfind : (List.range' 1 N).find?
          (fun r => (tbl2.lookup r).isNone) = none := by
        rw [List.find?_eq_none]
        intro r hr hcontra
        replace hcontra : (tbl2.lookup r).isNone = true := hcontra
        have heq := hs3 tbl2 hscan r
        rw [hall r hr] at heq
        rw [isNone_not_isSome, heq] at hcontra
        exact Bool.false_ne_true hcontra
      rw [hfind]
      exact decodeRows_ok dec hdec (sortTable tbl2)
  · intro hnd r hfind
    obtain ⟨tbl2, hscan⟩ := hok_iff.mpr hnd
    have hbool : ∀ i, (tbl2.lookup i).isNone =
        !((values.filter (fun x => inRange te x.1)).any
          (fun e => rowOf te e.1 == i)) := by
      intro i
      rw [isNone_not_isSome, hs3 tbl2 hscan i]
      rfl
    have hbridge : (fun r2 => (tbl2.lookup r2).isNone) =
        (fun r2 => !((values.filter (fun x => inRange te x.1)).any
          (fun e => rowOf te e.1 == r2))) := funext hbool
    rw [hred, hscan]
    show (match (List.range' 1 N).find?
        (fun r2 => (tbl2.lookup r2).isNone) with
      | some r2 => Except.error (Err.missingIndex r2)
      | none => decodeRows dec (sortTable tbl2)) =
      Except.error (Err.missingIndex r)
    rw [hbridge, hfind]
  · intro hnd
    cases hscan : scanAll t te pre
        (values.filter (fun x => inRange te x.1)) [] with
    | ok tbl2 => exact absurd (hok_iff.mp ⟨tbl2, hscan⟩) hnd
    | error err =>
      obtain ⟨s, i, rfl⟩ := hs2 err hscan
      refine ⟨s, i, ?_⟩
      rw [hred, hscan]

theorem extract_table_dense_law_witness :
    ∃ res, extract_table Except.ok treeAB
      [([1, 2, 1], ObjectValue.integer 7), ([9, 0], ObjectValue.integer 1)]
      [9] [1] "" = .ok res :=
  ((extract_table_dense_law Except.ok treeAB
      [([1, 2, 1], ObjectValue.integer 7), ([9, 0], ObjectValue.integer 1)]
      [9] [1] "" 1
      (fun m => ⟨m, rfl⟩) rfl (by decide)).1).mpr
    ⟨by decide, by decide⟩

end Sandgate
